import Mathlib

/-!
Verification of the jsobjectutils library against its specification.

The development shallowly embeds the JavaScript sources:
`src/objectutils.js` (deep equality, merge/clone, positional codec),
`objectaccessor.js` (name-path parsing and lookup),
`objectsorter.js` (order-expression parsing and comparator sort), and
`objectcompressor.js` (a byte-identical copy of the codec).

JavaScript values are modelled by the inductive type `JSVal` below.
Numbers are modelled by integers (no verified property depends on
non-integral float behaviour); functions are modelled by a single
opaque constructor, since every operation in scope either coerces a
function to undefined or compares it only against non-functions.
-/

/-- Model of a JavaScript runtime value as used by this library:
primitives, null, undefined, dates (by epoch milliseconds), callables,
arrays, and plain objects (insertion-ordered string-keyed fields). -/
inductive JSVal where
  | vUndef : JSVal
  | vNull : JSVal
  | vBool (b : Bool) : JSVal
  | vNum (n : Int) : JSVal
  | vStr (s : String) : JSVal
  | vBigInt (n : Int) : JSVal
  | vDate (ms : Int) : JSVal
  | vFunc : JSVal
  | vArr (elems : List JSVal) : JSVal
  | vObj (fields : List (String × JSVal)) : JSVal

open JSVal

/-- Decimal digit character for a digit below ten (JavaScript renders
array indices as canonical decimal strings). -/
def digitChar10 (n : Nat) : Char := Char.ofNat (48 + n)

/-- Decimal digit characters of `n`, most significant first; the first
argument is fuel bounding the number of divisions. -/
def natKeyAux : Nat → Nat → List Char
  | 0, _ => []
  | f + 1, n =>
    if n < 10 then [digitChar10 n]
    else natKeyAux f (n / 10) ++ [digitChar10 (n % 10)]

/-- Canonical decimal string of an array index, as produced by
JavaScript `Object.keys` on an array. -/
def natKey (n : Nat) : String := String.mk (natKeyAux (n + 1) n)

/-- Decode a digit-character list back to a number (left inverse used
to prove that index keys are injective). -/
def decodeDigits (l : List Char) : Nat :=
  l.foldl (fun acc c => acc * 10 + (c.toNat - 48)) 0

theorem decodeDigits_append (l : List Char) (c : Char) :
    decodeDigits (l ++ [c]) = decodeDigits l * 10 + (c.toNat - 48) := by
  simp [decodeDigits, List.foldl_append]

theorem digitChar10_toNat (n : Nat) (h : n < 10) :
    (digitChar10 n).toNat - 48 = n := by
  interval_cases n <;> decide

theorem decodeDigits_natKeyAux :
    ∀ fuel n, n < fuel → decodeDigits (natKeyAux fuel n) = n := by
  intro fuel
  induction fuel with
  | zero => intro n h; omega
  | succ f ih =>
    intro n h
    by_cases h10 : n < 10
    · simp [natKeyAux, h10, decodeDigits, digitChar10_toNat n h10]
    · have hd : n / 10 < f := by omega
      simp [natKeyAux, h10, decodeDigits_append, ih (n / 10) hd,
        digitChar10_toNat (n % 10) (Nat.mod_lt n (by omega))]
      omega

theorem decodeDigits_natKey (n : Nat) :
    decodeDigits (natKey n).data = n := by
  simpa [natKey] using decodeDigits_natKeyAux (n + 1) n (Nat.lt_succ_self n)

theorem natKey_injective : Function.Injective natKey := by
  intro a b h
  have : (natKey a).data = (natKey b).data := by rw [h]
  have := congrArg decodeDigits this
  simpa [decodeDigits_natKey] using this

/-- Index-key strings for the first `n` array positions, in order. -/
def idxKeys (n : Nat) : List String := (List.range n).map natKey

/-! ## Property access layer

JavaScript property access, modelled to the extent the embedded code
exercises it: own enumerable keys (`Object.keys`), own property reads
(including array and string indices), and prototype-chain reads for
the standard prototype member names (which resolve to functions) and
the non-enumerable `length` of arrays and strings. -/

/-- First array index below `n` whose canonical decimal string is `k`. -/
def idxOf? (n : Nat) (k : String) : Option Nat :=
  (List.range n).find? (fun i => natKey i == k)

/-- Own property read: object fields, array elements and string
characters addressed by canonical index strings. Returns `none` when
the name is not an own property. -/
def jsOwnGet? : JSVal → String → Option JSVal
  | vObj fs, k => fs.lookup k
  | vArr xs, k =>
    match idxOf? xs.length k with
    | some i => xs.get? i
    | none => none
  | vStr s, k =>
    match idxOf? s.length k with
    | some i => (s.data.get? i).map (fun c => vStr (String.mk [c]))
    | none => none
  | _, _ => none

/-- Own property read defaulting to `undefined`, the value JavaScript
yields for a missing own property once the prototype is known not to
supply it. -/
def jsOwnGetD (v : JSVal) (k : String) : JSVal := (jsOwnGet? v k).getD vUndef

/-- Own enumerable key list, as produced by `Object.keys`: object field
names in insertion order, index strings for arrays and strings, and
nothing for the other kinds. `Object.keys` throws on `null` and
`undefined`; callers of this function must branch on those first. -/
def jsOwnEnumKeys : JSVal → List String
  | vObj fs => fs.map Prod.fst
  | vArr xs => idxKeys xs.length
  | vStr s => idxKeys s.length
  | _ => []

/-- Enumerable member names of `Object.prototype` is empty; these are
the standard non-enumerable members reachable through the prototype
chain of every plain object. -/
def objectProtoNames : List String :=
  ["constructor", "hasOwnProperty", "isPrototypeOf", "propertyIsEnumerable",
   "toLocaleString", "toString", "valueOf"]

/-- Standard non-enumerable member names of `Array.prototype`. -/
def arrayProtoNames : List String :=
  ["at", "concat", "copyWithin", "entries", "every", "fill", "filter", "find",
   "findIndex", "findLast", "findLastIndex", "flat", "flatMap", "forEach",
   "includes", "indexOf", "join", "keys", "lastIndexOf", "map", "pop", "push",
   "reduce", "reduceRight", "reverse", "shift", "slice", "some", "sort",
   "splice", "unshift", "values"]

/-- Standard non-enumerable member names of `String.prototype`. -/
def stringProtoNames : List String :=
  ["at", "charAt", "charCodeAt", "codePointAt", "concat", "endsWith",
   "includes", "indexOf", "padEnd", "padStart", "repeat", "replace", "slice",
   "split", "startsWith", "substring", "toLowerCase", "toUpperCase", "trim"]

/-- Standard non-enumerable member names of `Date.prototype` (the subset
relevant to this development). -/
def dateProtoNames : List String :=
  ["getDate", "getDay", "getFullYear", "getHours", "getMilliseconds",
   "getMinutes", "getMonth", "getSeconds", "getTime", "getTimezoneOffset",
   "setTime", "toDateString", "toISOString", "toJSON"]

/-- Standard non-enumerable member names of `Number.prototype`. -/
def numberProtoNames : List String :=
  ["toExponential", "toFixed", "toPrecision"]

/-- Prototype-chain read for a name that is not an own property: the
non-enumerable `length` of arrays and strings, and the standard
prototype methods, which are functions; anything else is `undefined`.
For `null` and `undefined` bases property access throws; callers use
`jsRawGetE` there. -/
def jsProtoGet : JSVal → String → JSVal
  | vArr xs, k =>
    if k = "length" then vNum xs.length
    else if k ∈ arrayProtoNames ∨ k ∈ objectProtoNames then vFunc else vUndef
  | vStr s, k =>
    if k = "length" then vNum s.length
    else if k ∈ stringProtoNames ∨ k ∈ objectProtoNames then vFunc else vUndef
  | vObj _, k => if k ∈ objectProtoNames then vFunc else vUndef
  | vDate _, k =>
    if k ∈ dateProtoNames ∨ k ∈ objectProtoNames then vFunc else vUndef
  | vNum _, k =>
    if k ∈ numberProtoNames ∨ k ∈ objectProtoNames then vFunc else vUndef
  | vBigInt _, k => if k ∈ objectProtoNames then vFunc else vUndef
  | vBool _, k => if k ∈ objectProtoNames then vFunc else vUndef
  | vFunc, k => if k ∈ objectProtoNames then vFunc else vUndef
  | _, _ => vUndef

/-- Full JavaScript property read `v[k]` on a base that is neither
`null` nor `undefined`: own property first, then the prototype chain. -/
def jsRawGet (v : JSVal) (k : String) : JSVal :=
  match jsOwnGet? v k with
  | some x => x
  | none => jsProtoGet v k

/-- Full JavaScript property read `v[k]`, throwing (`TypeError`) when
the base is `null` or `undefined`. -/
def jsRawGetE (v : JSVal) (k : String) : Except Unit JSVal :=
  match v with
  | vUndef => .error ()
  | vNull => .error ()
  | _ => .ok (jsRawGet v k)

/-- Own enumerable key-value pairs as iterated by the merge and equality
code (`Object.keys` + reads). Those code paths only ever reach objects
and arrays, which is what this function covers; string index pairs are
never iterated there. -/
def jsOwnPairs : JSVal → List (String × JSVal)
  | vObj fs => fs
  | vArr xs => (idxKeys xs.length).zip xs
  | _ => []

/-- Size of a pair list counting only the values, used purely as a
termination measure for the loops that walk `jsOwnPairs` (it is a proof
artifact, not part of the embedded code, hence noncomputable: the
automatically generated `SizeOf` instance of the nested inductive
carries no executable code). -/
noncomputable def pairsSize (ps : List (String × JSVal)) : Nat :=
  (ps.map (fun p => 1 + sizeOf p.2)).sum

theorem jsval_sizeOf_pos (v : JSVal) : 1 ≤ sizeOf v := by
  cases v <;> (try simp) <;> omega

theorem pairsSize_le_sizeOf_list :
    ∀ fs : List (String × JSVal), pairsSize fs + 1 ≤ sizeOf fs := by
  intro fs
  induction fs with
  | nil => simp [pairsSize]
  | cons p t ih =>
    obtain ⟨a, b⟩ := p
    simp only [pairsSize, List.map_cons, List.sum_cons] at *
    simp only [List.cons.sizeOf_spec, Prod.mk.sizeOf_spec]
    have : 1 ≤ sizeOf a := by
      obtain ⟨d⟩ := a
      simp only [String.mk.sizeOf_spec]
      omega
    omega

theorem pairsSize_zip_le :
    ∀ (xs : List JSVal) (ks : List String),
      pairsSize (ks.zip xs) + 1 ≤ sizeOf xs := by
  intro xs
  induction xs with
  | nil => intro ks; cases ks <;> simp [pairsSize]
  | cons x t ih =>
    intro ks
    cases ks with
    | nil =>
      simp only [List.zip_nil_left, pairsSize, List.map_nil, List.sum_nil,
        List.cons.sizeOf_spec]
      omega
    | cons k kt =>
      have := ih kt
      simp only [List.zip_cons_cons, pairsSize, List.map_cons, List.sum_cons,
        List.cons.sizeOf_spec] at *
      omega

theorem pairsSize_ownPairs_lt (v : JSVal) :
    pairsSize (jsOwnPairs v) < sizeOf v := by
  cases v with
  | vArr xs =>
    have := pairsSize_zip_le xs (idxKeys xs.length)
    simp only [jsOwnPairs, JSVal.vArr.sizeOf_spec]
    omega
  | vObj fs =>
    have := pairsSize_le_sizeOf_list fs
    simp only [jsOwnPairs, JSVal.vObj.sizeOf_spec]
    omega
  | _ =>
    have := jsval_sizeOf_pos
    simp only [jsOwnPairs, pairsSize, List.map_nil, List.sum_nil]
    first
    | exact this _
    | (simp only []
       omega)

theorem sizeOf_lt_of_mem_list {x : JSVal} :
    ∀ {xs : List JSVal}, x ∈ xs → sizeOf x < sizeOf xs := by
  intro xs h
  induction xs with
  | nil => cases h
  | cons y t ih =>
    rcases List.mem_cons.mp h with rfl | hm
    · simp; omega
    · have := ih hm; simp; omega

theorem lookup_sizeOf_le {fs : List (String × JSVal)} {k : String} {x : JSVal}
    (h : fs.lookup k = some x) : sizeOf x < sizeOf fs := by
  induction fs with
  | nil => simp [List.lookup] at h
  | cons p t ih =>
    obtain ⟨a, b⟩ := p
    by_cases hk : k == a
    · simp only [List.lookup, hk] at h
      cases h
      simp only [List.cons.sizeOf_spec, Prod.mk.sizeOf_spec]
      omega
    · simp only [List.lookup, hk] at h
      have := ih h
      simp only [List.cons.sizeOf_spec, Prod.mk.sizeOf_spec]
      omega

theorem sizeOf_char_mem {c : Char} :
    ∀ {l : List Char}, c ∈ l → 2 + sizeOf c ≤ sizeOf l := by
  intro l h
  induction l with
  | nil => cases h
  | cons y t ih =>
    rcases List.mem_cons.mp h with rfl | hm
    · have h1 : 1 ≤ sizeOf t := by
        cases t <;> simp only [List.nil.sizeOf_spec, List.cons.sizeOf_spec] <;>
          omega
      simp only [List.cons.sizeOf_spec]
      omega
    · have := ih hm
      simp only [List.cons.sizeOf_spec]
      omega

theorem jsOwnGet?_sizeOf_le {v : JSVal} {k : String} {x : JSVal}
    (h : jsOwnGet? v k = some x) : sizeOf x ≤ sizeOf v := by
  cases v with
  | vObj fs =>
    simp only [jsOwnGet?] at h
    have := lookup_sizeOf_le h
    simp only [JSVal.vObj.sizeOf_spec]
    omega
  | vArr xs =>
    simp only [jsOwnGet?] at h
    cases hidx : idxOf? xs.length k with
    | none => simp [hidx] at h
    | some i =>
      simp only [hidx] at h
      have hmem : x ∈ xs := by
        exact List.get?_mem h
      have := sizeOf_lt_of_mem_list hmem
      simp only [JSVal.vArr.sizeOf_spec]
      omega
  | vStr s =>
    simp only [jsOwnGet?] at h
    cases hidx : idxOf? s.length k with
    | none => simp [hidx] at h
    | some i =>
      simp only [hidx, Option.map_eq_some'] at h
      obtain ⟨c, hc, rfl⟩ := h
      have hmem : c ∈ s.data := List.get?_mem hc
      have hle := sizeOf_char_mem hmem
      obtain ⟨data⟩ := s
      simp only [String.data] at hle
      simp only [JSVal.vStr.sizeOf_spec, String.mk.sizeOf_spec,
        List.cons.sizeOf_spec, List.nil.sizeOf_spec]
      omega
  | _ => simp [jsOwnGet?] at h

theorem jsOwnGetD_sizeOf_le (v : JSVal) (k : String) :
    sizeOf (jsOwnGetD v k) ≤ sizeOf v := by
  unfold jsOwnGetD
  cases h : jsOwnGet? v k with
  | none => simpa using jsval_sizeOf_pos v
  | some x => simpa using jsOwnGet?_sizeOf_le h

/-! ## Name-path parser (objectaccessor.js, splitNamePath)

A character-by-character state machine. States mirror the source
string literals: expect-name-start, expect-double-quote-end,
expect-single-quote-end, expect-name-end, expect-dot. The parser never
throws; on a syntax error (a non-dot character after a closed quoted
segment) it returns the names accumulated so far. -/

/-- Single-quote character (written via its code point to keep the
source free of escaped quote literals). -/
def squoteC : Char := Char.ofNat 39

/-- Double-quote character. -/
def dquoteC : Char := Char.ofNat 34

/-- States of the splitNamePath scanner. -/
inductive SplitSt where
  | nameStart
  | dquoteEnd
  | squoteEnd
  | nameEnd
  | dotExpect

/-- The splitNamePath scan loop. The buffer resets written on entering
a quoted or bare segment in the source happen on the transition into
`nameStart`, `dquoteEnd` and `squoteEnd` here, which is observationally
identical. On closing a quote the finished name is pushed and the
buffer content becomes irrelevant, so it is cleared. Note the bare-name
branch pushes the buffer without trimming: the trim present in older
revisions is commented out in the source. -/
def splitGo : List Char → SplitSt → List Char → List String → List String
  | [], st, buf, names =>
    match st with
    | .nameEnd => if buf.length > 0 then names ++ [String.mk buf] else names
    | _ => names
  | c :: cs, .nameStart, _, names =>
    if c == dquoteC then splitGo cs .dquoteEnd [] names
    else if c == squoteC then splitGo cs .squoteEnd [] names
    else splitGo cs .nameEnd [c] names
  | c :: cs, .dquoteEnd, buf, names =>
    if c == dquoteC then splitGo cs .dotExpect [] (names ++ [String.mk buf])
    else splitGo cs .dquoteEnd (buf ++ [c]) names
  | [c], .squoteEnd, buf, names =>
    if c == squoteC then splitGo [] .dotExpect [] (names ++ [String.mk buf])
    else splitGo [] .squoteEnd (buf ++ [c]) names
  | c :: c2 :: cs2, .squoteEnd, buf, names =>
    if c == squoteC then
      if c2 == squoteC then splitGo cs2 .squoteEnd (buf ++ [squoteC]) names
      else splitGo (c2 :: cs2) .dotExpect [] (names ++ [String.mk buf])
    else splitGo (c2 :: cs2) .squoteEnd (buf ++ [c]) names
  | c :: cs, .nameEnd, buf, names =>
    if c == '.' then splitGo cs .nameStart [] (names ++ [String.mk buf])
    else splitGo cs .nameEnd (buf ++ [c]) names
  | c :: cs, .dotExpect, buf, names =>
    if c == '.' then splitGo cs .nameStart buf names
    else names

namespace ObjectAccessor

/-- Model of ObjectAccessor.splitNamePath. -/
def splitNamePath (namePath : String) : List String :=
  splitGo namePath.data .nameStart [] []

/-- Model of the while loop inside getPropertyValueByNamePath: the loop
runs while the value is not undefined and segments remain; each step
takes the own enumerable property when present and undefined otherwise
(`Object.keys(value).includes(name) ? value[name] : undefined`).
`Object.keys(null)` throws a TypeError, modelled as `Except.error`. -/
def lookupSegs : JSVal → List String → Except Unit JSVal
  | v, [] => .ok v
  | vUndef, _ :: _ => .ok vUndef
  | vNull, _ :: _ => .error ()
  | v, n :: ns =>
    lookupSegs (if (jsOwnEnumKeys v).contains n then jsOwnGetD v n else vUndef)
      ns

/-- Model of ObjectAccessor.getPropertyValueByNamePath. -/
def getPropertyValueByNamePath (sourceObject : JSVal) (namePath : String) :
    Except Unit JSVal :=
  lookupSegs sourceObject (splitNamePath namePath)

end ObjectAccessor

/-! ## Order-expression parser (objectsorter.js, parseOrderExpression) -/

/-- An ordering field as produced by the sorter: a field name path and
its direction. -/
structure OrderField where
  fieldName : String
  isAscendingOrder : Bool
  deriving DecidableEq

/-- JavaScript whitespace test for the characters String.prototype.trim
removes (the subset that can occur in this development). -/
def isJsSpace (c : Char) : Bool :=
  c == ' ' || c == Char.ofNat 9 || c == Char.ofNat 10 || c == Char.ofNat 13

/-- Model of String.prototype.trim on a character list. -/
def jsTrimChars (l : List Char) : List Char :=
  ((l.dropWhile isJsSpace).reverse.dropWhile isJsSpace).reverse

/-- Characters of the keyword desc, against which the scanner checks
each candidate direction character. -/
def descChars : List Char := ['d', 'e', 's', 'c']

/-- States of the parseOrderExpression scanner. -/
inductive OrderSt where
  | nameStart
  | dquoteEnd
  | squoteEnd
  | nameEnd
  | ascStart
  | ascEnd

/-- The appendNameAscendingPair helper: both the name buffer and the
ascending buffer are joined and trimmed (note that this trims quoted
names as well). -/
def mkOrderPair (nameBuf ascBuf : List Char) : String × String :=
  (String.mk (jsTrimChars nameBuf), String.mk (jsTrimChars ascBuf))

/-- The parseOrderExpression scan loop. On a syntax error in the
direction token the source returns the orderFields array, which at that
point is still empty: this is modelled by `Except.error`, mapped to the
empty list by the wrapper. A dangling segment at end of input is
flushed from every state except `nameStart`, provided the name buffer
is nonempty. -/
def orderGo : List Char → OrderSt → List Char → List Char →
    List (String × String) → Except Unit (List (String × String))
  | [], st, nameBuf, ascBuf, pairs =>
    match st with
    | .nameStart => .ok pairs
    | _ =>
      if nameBuf.length > 0 then .ok (pairs ++ [mkOrderPair nameBuf ascBuf])
      else .ok pairs
  | c :: cs, .nameStart, nameBuf, ascBuf, pairs =>
    if c == ' ' then orderGo cs .nameStart nameBuf ascBuf pairs
    else if c == dquoteC then orderGo cs .dquoteEnd [] [] pairs
    else if c == squoteC then orderGo cs .squoteEnd [] [] pairs
    else orderGo cs .nameEnd [c] [] pairs
  | c :: cs, .dquoteEnd, nameBuf, ascBuf, pairs =>
    if c == dquoteC then orderGo cs .ascStart nameBuf ascBuf pairs
    else orderGo cs .dquoteEnd (nameBuf ++ [c]) ascBuf pairs
  | [c], .squoteEnd, nameBuf, ascBuf, pairs =>
    if c == squoteC then orderGo [] .ascStart nameBuf ascBuf pairs
    else orderGo [] .squoteEnd (nameBuf ++ [c]) ascBuf pairs
  | c :: c2 :: cs2, .squoteEnd, nameBuf, ascBuf, pairs =>
    if c == squoteC then
      if c2 == squoteC then
        orderGo cs2 .squoteEnd (nameBuf ++ [squoteC]) ascBuf pairs
      else orderGo (c2 :: cs2) .ascStart nameBuf ascBuf pairs
    else orderGo (c2 :: cs2) .squoteEnd (nameBuf ++ [c]) ascBuf pairs
  | c :: cs, .nameEnd, nameBuf, ascBuf, pairs =>
    if c == ',' then
      orderGo cs .nameStart nameBuf ascBuf (pairs ++ [mkOrderPair nameBuf ascBuf])
    else if c == ' ' then orderGo cs .ascStart nameBuf ascBuf pairs
    else orderGo cs .nameEnd (nameBuf ++ [c]) ascBuf pairs
  | c :: cs, .ascStart, nameBuf, ascBuf, pairs =>
    if c == ' ' then orderGo cs .ascStart nameBuf ascBuf pairs
    else if c == ',' then
      orderGo cs .nameStart nameBuf ascBuf (pairs ++ [mkOrderPair nameBuf ascBuf])
    else orderGo cs .ascEnd nameBuf (ascBuf ++ [c]) pairs
  | c :: cs, .ascEnd, nameBuf, ascBuf, pairs =>
    if c == ',' then
      orderGo cs .nameStart nameBuf ascBuf (pairs ++ [mkOrderPair nameBuf ascBuf])
    else if descChars.contains c.toLower then
      orderGo cs .ascEnd nameBuf (ascBuf ++ [c]) pairs
    else .error ()

namespace ObjectSorter

/-- Conversion of an accumulated (name, ascending) pair to an
OrderField: the direction is descending exactly when the lowercased
ascending token is the word desc. -/
def pairToOrderField (p : String × String) : OrderField :=
  if String.mk (p.2.data.map Char.toLower) = "desc" then
    { fieldName := p.1, isAscendingOrder := false }
  else { fieldName := p.1, isAscendingOrder := true }

/-- Model of ObjectSorter.parseOrderExpression. On the empty string the
source returns early with the empty list; on a syntax error it returns
the orderFields list, which is still empty at that point. -/
def parseOrderExpression (orderExpression : String) : List OrderField :=
  if orderExpression = "" then []
  else
    match orderGo orderExpression.data .nameStart [] [] [] with
    | .error _ => []
    | .ok pairs => pairs.map pairToOrderField

end ObjectSorter

/-! ## Scan lemmas for the two parsers -/

theorem string_mk_data (s : String) : String.mk s.data = s := by
  cases s
  rfl

/-- Render a segment in single quotes. -/
def quoteSegL (s : List Char) : List Char := squoteC :: s ++ [squoteC]

/-- Render a nonempty list of segments as a single-quoted dotted path. -/
def renderPath : List String → List Char
  | [] => []
  | [n] => quoteSegL n.data
  | n :: m :: ns => quoteSegL n.data ++ '.' :: renderPath (m :: ns)

/-- Render a nonempty list of segments as a single-quoted comma
separated order expression. -/
def renderOrderQ : List String → List Char
  | [] => []
  | [n] => quoteSegL n.data
  | n :: m :: ns => quoteSegL n.data ++ ',' :: renderOrderQ (m :: ns)

@[simp] theorem splitGo_nil (st : SplitSt) (buf : List Char)
    (names : List String) :
    splitGo [] st buf names =
      match st with
      | .nameEnd => if buf.length > 0 then names ++ [String.mk buf] else names
      | _ => names := by
  rfl

@[simp] theorem splitGo_nameStart (c : Char) (cs buf : List Char)
    (names : List String) :
    splitGo (c :: cs) .nameStart buf names =
      if c == dquoteC then splitGo cs .dquoteEnd [] names
      else if c == squoteC then splitGo cs .squoteEnd [] names
      else splitGo cs .nameEnd [c] names := by
  cases cs <;> rfl

@[simp] theorem splitGo_dquote (c : Char) (cs buf : List Char)
    (names : List String) :
    splitGo (c :: cs) .dquoteEnd buf names =
      if c == dquoteC then
        splitGo cs .dotExpect [] (names ++ [String.mk buf])
      else splitGo cs .dquoteEnd (buf ++ [c]) names := by
  cases cs <;> rfl

@[simp] theorem splitGo_squote (c : Char) (cs buf : List Char)
    (names : List String) :
    splitGo (c :: cs) .squoteEnd buf names =
      if c == squoteC then
        match cs with
        | c2 :: cs2 =>
          if c2 == squoteC then splitGo cs2 .squoteEnd (buf ++ [squoteC]) names
          else splitGo (c2 :: cs2) .dotExpect [] (names ++ [String.mk buf])
        | [] => splitGo [] .dotExpect [] (names ++ [String.mk buf])
      else splitGo cs .squoteEnd (buf ++ [c]) names := by
  cases cs with
  | nil => by_cases h : c == squoteC <;> simp only [splitGo, h] <;> rfl
  | cons c2 cs2 =>
    by_cases h : c == squoteC <;> simp only [splitGo, h] <;> rfl

@[simp] theorem splitGo_nameEnd (c : Char) (cs buf : List Char)
    (names : List String) :
    splitGo (c :: cs) .nameEnd buf names =
      if c == '.' then splitGo cs .nameStart [] (names ++ [String.mk buf])
      else splitGo cs .nameEnd (buf ++ [c]) names := by
  cases cs <;> rfl

@[simp] theorem splitGo_dotExpect (c : Char) (cs buf : List Char)
    (names : List String) :
    splitGo (c :: cs) .dotExpect buf names =
      if c == '.' then splitGo cs .nameStart buf names else names := by
  cases cs <;> rfl

@[simp] theorem orderGo_nil (st : OrderSt) (nameBuf ascBuf : List Char)
    (pairs : List (String × String)) :
    orderGo [] st nameBuf ascBuf pairs =
      match st with
      | .nameStart => .ok pairs
      | _ =>
        if nameBuf.length > 0 then .ok (pairs ++ [mkOrderPair nameBuf ascBuf])
        else .ok pairs := by
  rfl

@[simp] theorem orderGo_nameStart (c : Char) (cs nameBuf ascBuf : List Char)
    (pairs : List (String × String)) :
    orderGo (c :: cs) .nameStart nameBuf ascBuf pairs =
      if c == ' ' then orderGo cs .nameStart nameBuf ascBuf pairs
      else if c == dquoteC then orderGo cs .dquoteEnd [] [] pairs
      else if c == squoteC then orderGo cs .squoteEnd [] [] pairs
      else orderGo cs .nameEnd [c] [] pairs := by
  cases cs <;> rfl

@[simp] theorem orderGo_dquote (c : Char) (cs nameBuf ascBuf : List Char)
    (pairs : List (String × String)) :
    orderGo (c :: cs) .dquoteEnd nameBuf ascBuf pairs =
      if c == dquoteC then orderGo cs .ascStart nameBuf ascBuf pairs
      else orderGo cs .dquoteEnd (nameBuf ++ [c]) ascBuf pairs := by
  cases cs <;> rfl

@[simp] theorem orderGo_squote (c : Char) (cs nameBuf ascBuf : List Char)
    (pairs : List (String × String)) :
    orderGo (c :: cs) .squoteEnd nameBuf ascBuf pairs =
      if c == squoteC then
        match cs with
        | c2 :: cs2 =>
          if c2 == squoteC then
            orderGo cs2 .squoteEnd (nameBuf ++ [squoteC]) ascBuf pairs
          else orderGo (c2 :: cs2) .ascStart nameBuf ascBuf pairs
        | [] => orderGo [] .ascStart nameBuf ascBuf pairs
      else orderGo cs .squoteEnd (nameBuf ++ [c]) ascBuf pairs := by
  cases cs with
  | nil => by_cases h : c == squoteC <;> simp only [orderGo, h] <;> rfl
  | cons c2 cs2 =>
    by_cases h : c == squoteC <;> simp only [orderGo, h] <;> rfl

@[simp] theorem orderGo_nameEnd (c : Char) (cs nameBuf ascBuf : List Char)
    (pairs : List (String × String)) :
    orderGo (c :: cs) .nameEnd nameBuf ascBuf pairs =
      if c == ',' then
        orderGo cs .nameStart nameBuf ascBuf
          (pairs ++ [mkOrderPair nameBuf ascBuf])
      else if c == ' ' then orderGo cs .ascStart nameBuf ascBuf pairs
      else orderGo cs .nameEnd (nameBuf ++ [c]) ascBuf pairs := by
  cases cs <;> rfl

@[simp] theorem orderGo_ascStart (c : Char) (cs nameBuf ascBuf : List Char)
    (pairs : List (String × String)) :
    orderGo (c :: cs) .ascStart nameBuf ascBuf pairs =
      if c == ' ' then orderGo cs .ascStart nameBuf ascBuf pairs
      else if c == ',' then
        orderGo cs .nameStart nameBuf ascBuf
          (pairs ++ [mkOrderPair nameBuf ascBuf])
      else orderGo cs .ascEnd nameBuf (ascBuf ++ [c]) pairs := by
  cases cs <;> rfl

@[simp] theorem orderGo_ascEnd (c : Char) (cs nameBuf ascBuf : List Char)
    (pairs : List (String × String)) :
    orderGo (c :: cs) .ascEnd nameBuf ascBuf pairs =
      if c == ',' then
        orderGo cs .nameStart nameBuf ascBuf
          (pairs ++ [mkOrderPair nameBuf ascBuf])
      else if descChars.contains c.toLower then
        orderGo cs .ascEnd nameBuf (ascBuf ++ [c]) pairs
      else .error () := by
  cases cs <;> rfl

theorem splitGo_squote_scan :
    ∀ (cs rest : List Char) (buf : List Char) (names : List String),
      (∀ c ∈ cs, c ≠ squoteC) →
      splitGo (cs ++ rest) .squoteEnd buf names
        = splitGo rest .squoteEnd (buf ++ cs) names := by
  intro cs
  induction cs with
  | nil => intro rest buf names _; simp
  | cons c cs ih =>
    intro rest buf names h
    have hc : (c == squoteC) = false := by
      simp only [beq_eq_false_iff_ne]
      exact h c (List.mem_cons_self c cs)
    rw [List.cons_append, splitGo_squote]
    simp only [hc, Bool.false_eq_true, if_false]
    rw [ih rest (buf ++ [c]) names (fun x hx => h x (List.mem_cons_of_mem c hx))]
    simp

theorem splitGo_nameEnd_scan :
    ∀ (cs rest : List Char) (buf : List Char) (names : List String),
      (∀ c ∈ cs, c ≠ '.') →
      splitGo (cs ++ rest) .nameEnd buf names
        = splitGo rest .nameEnd (buf ++ cs) names := by
  intro cs
  induction cs with
  | nil => intro rest buf names _; simp
  | cons c cs ih =>
    intro rest buf names h
    have hc : (c == '.') = false := by
      simp only [beq_eq_false_iff_ne]
      exact h c (List.mem_cons_self c cs)
    rw [List.cons_append, splitGo_nameEnd]
    simp only [hc, Bool.false_eq_true, if_false]
    rw [ih rest (buf ++ [c]) names (fun x hx => h x (List.mem_cons_of_mem c hx))]
    simp

theorem splitGo_render_go :
    ∀ (N : List String) (names : List String) (r : Char) (t : List Char),
      N ≠ [] →
      (∀ n ∈ N, ∀ c ∈ n.data, c ≠ squoteC) →
      r ≠ '.' → r ≠ squoteC →
      splitGo (renderPath N ++ r :: t) .nameStart [] names = names ++ N := by
  intro N
  induction N with
  | nil => intro names r t h; cases h rfl
  | cons n rest ih =>
    intro names r t _ hq hr hrs
    have hn : ∀ c ∈ n.data, c ≠ squoteC :=
      hq n (List.mem_cons_self n rest)
    have hsd : (squoteC == dquoteC) = false := by decide
    have hss : (squoteC == squoteC) = true := by decide
    cases rest with
    | nil =>
      have hrs2 : (r == squoteC) = false := by
        simp only [beq_eq_false_iff_ne]; exact hrs
      have hrd : (r == '.') = false := by
        simp only [beq_eq_false_iff_ne]; exact hr
      show splitGo ((squoteC :: n.data ++ [squoteC]) ++ r :: t)
        .nameStart [] names = names ++ [n]
      simp only [List.cons_append, List.append_assoc, List.singleton_append,
        List.nil_append]
      rw [splitGo_nameStart]
      simp only [hsd, Bool.false_eq_true, if_false, hss, if_true]
      rw [splitGo_squote_scan n.data (squoteC :: r :: t) [] names hn]
      rw [splitGo_squote]
      simp only [hss, if_true, hrs2, Bool.false_eq_true, if_false,
        List.nil_append, string_mk_data]
      rw [splitGo_dotExpect]
      simp only [hrd, Bool.false_eq_true, if_false]
    | cons m ns =>
      have hdot : (('.' : Char) == squoteC) = false := by decide
      have hdd : (('.' : Char) == '.') = true := by decide
      show splitGo ((squoteC :: n.data ++ [squoteC]) ++ '.' ::
        renderPath (m :: ns) ++ r :: t) .nameStart [] names
        = names ++ n :: m :: ns
      simp only [List.cons_append, List.append_assoc, List.singleton_append,
        List.nil_append]
      rw [splitGo_nameStart]
      simp only [hsd, Bool.false_eq_true, if_false, hss, if_true]
      rw [splitGo_squote_scan n.data
        (squoteC :: '.' :: (renderPath (m :: ns) ++ r :: t)) [] names hn]
      rw [splitGo_squote]
      simp only [hss, if_true, hdot, Bool.false_eq_true, if_false,
        List.nil_append, string_mk_data]
      rw [splitGo_dotExpect]
      simp only [hdd, if_true]
      rw [ih (names ++ [n]) r t (by simp) (fun x hx => hq x (List.mem_cons_of_mem n hx)) hr hrs]
      simp

theorem orderGo_squote_scan :
    ∀ (cs rest nb ab : List Char) (ps : List (String × String)),
      (∀ c ∈ cs, c ≠ squoteC) →
      orderGo (cs ++ rest) .squoteEnd nb ab ps
        = orderGo rest .squoteEnd (nb ++ cs) ab ps := by
  intro cs
  induction cs with
  | nil => intro rest nb ab ps _; simp
  | cons c cs ih =>
    intro rest nb ab ps h
    have hc : (c == squoteC) = false := by
      simp only [beq_eq_false_iff_ne]
      exact h c (List.mem_cons_self c cs)
    rw [List.cons_append, orderGo_squote]
    simp only [hc, Bool.false_eq_true, if_false]
    rw [ih rest (nb ++ [c]) ab ps (fun x hx => h x (List.mem_cons_of_mem c hx))]
    simp

theorem orderGo_nameEnd_scan :
    ∀ (cs rest nb ab : List Char) (ps : List (String × String)),
      (∀ c ∈ cs, c ≠ ',' ∧ c ≠ ' ') →
      orderGo (cs ++ rest) .nameEnd nb ab ps
        = orderGo rest .nameEnd (nb ++ cs) ab ps := by
  intro cs
  induction cs with
  | nil => intro rest nb ab ps _; simp
  | cons c cs ih =>
    intro rest nb ab ps h
    have hc1 : (c == ',') = false := by
      simp only [beq_eq_false_iff_ne]
      exact (h c (List.mem_cons_self c cs)).1
    have hc2 : (c == ' ') = false := by
      simp only [beq_eq_false_iff_ne]
      exact (h c (List.mem_cons_self c cs)).2
    rw [List.cons_append, orderGo_nameEnd]
    simp only [hc1, hc2, Bool.false_eq_true, if_false]
    rw [ih rest (nb ++ [c]) ab ps (fun x hx => h x (List.mem_cons_of_mem c hx))]
    simp

theorem orderGo_nameStart_spaces :
    ∀ (cs rest nb ab : List Char) (ps : List (String × String)),
      (∀ c ∈ cs, c = ' ') →
      orderGo (cs ++ rest) .nameStart nb ab ps
        = orderGo rest .nameStart nb ab ps := by
  intro cs
  induction cs with
  | nil => intro rest nb ab ps _; simp
  | cons c cs ih =>
    intro rest nb ab ps h
    have hc : (c == ' ') = true := by
      simp only [beq_iff_eq]
      exact h c (List.mem_cons_self c cs)
    rw [List.cons_append, orderGo_nameStart]
    simp only [hc, if_true]
    exact ih rest nb ab ps (fun x hx => h x (List.mem_cons_of_mem c hx))

theorem orderGo_ascStart_spaces :
    ∀ (cs rest nb ab : List Char) (ps : List (String × String)),
      (∀ c ∈ cs, c = ' ') →
      orderGo (cs ++ rest) .ascStart nb ab ps
        = orderGo rest .ascStart nb ab ps := by
  intro cs
  induction cs with
  | nil => intro rest nb ab ps _; simp
  | cons c cs ih =>
    intro rest nb ab ps h
    have hc : (c == ' ') = true := by
      simp only [beq_iff_eq]
      exact h c (List.mem_cons_self c cs)
    rw [List.cons_append, orderGo_ascStart]
    simp only [hc, if_true]
    exact ih rest nb ab ps (fun x hx => h x (List.mem_cons_of_mem c hx))

theorem jsTrimChars_of_no_space (l : List Char)
    (h : ∀ c ∈ l, isJsSpace c = false) : jsTrimChars l = l := by
  have drop1 : ∀ m : List Char, (∀ c ∈ m, isJsSpace c = false) →
      m.dropWhile isJsSpace = m := by
    intro m hm
    cases m with
    | nil => rfl
    | cons c t =>
      rw [List.dropWhile_cons_of_neg]
      simp [hm c (List.mem_cons_self c t)]
  unfold jsTrimChars
  rw [drop1 l h, drop1 l.reverse (fun c hc => h c (List.mem_reverse.mp hc)),
    List.reverse_reverse]

theorem orderGo_render_err :
    ∀ (N : List String) (nb ab : List Char) (ps : List (String × String))
      (d c : Char) (t : List Char),
      N ≠ [] → (∀ n ∈ N, ∀ ch ∈ n.data, ch ≠ squoteC) →
      d ≠ ' ' → d ≠ ',' → descChars.contains c.toLower = false → c ≠ ',' →
      orderGo (renderOrderQ N ++ ' ' :: d :: c :: t) .nameStart nb ab ps
        = .error () := by
  intro N
  induction N with
  | nil => intro _ _ _ _ _ _ h; cases h rfl
  | cons n rest ih =>
    intro nb ab ps d c t _ hq hd1 hd2 hc1 hc2
    have hn := hq n (List.mem_cons_self n rest)
    have hsp : (squoteC == ' ') = false := by decide
    have hsd : (squoteC == dquoteC) = false := by decide
    have hss : (squoteC == squoteC) = true := by decide
    have hspq : ((' ' : Char) == squoteC) = false := by decide
    have hspsp : ((' ' : Char) == ' ') = true := by decide
    have hdsp : (d == ' ') = false := by
      simp only [beq_eq_false_iff_ne]; exact hd1
    have hdcm : (d == ',') = false := by
      simp only [beq_eq_false_iff_ne]; exact hd2
    have hccm : (c == ',') = false := by
      simp only [beq_eq_false_iff_ne]; exact hc2
    cases rest with
    | nil =>
      show orderGo ((squoteC :: n.data ++ [squoteC]) ++ ' ' :: d :: c :: t)
        .nameStart nb ab ps = .error ()
      simp only [List.cons_append, List.append_assoc, List.singleton_append,
        List.nil_append]
      rw [orderGo_nameStart]
      simp only [hsp, hsd, Bool.false_eq_true, if_false, hss, if_true]
      rw [orderGo_squote_scan n.data (squoteC :: ' ' :: d :: c :: t) [] [] ps hn]
      rw [orderGo_squote]
      simp only [hss, if_true, hspq, Bool.false_eq_true, if_false,
        List.nil_append]
      rw [orderGo_ascStart]
      simp only [hspsp, if_true]
      rw [orderGo_ascStart]
      simp only [hdsp, hdcm, Bool.false_eq_true, if_false]
      rw [orderGo_ascEnd]
      simp only [hccm, hc1, Bool.false_eq_true, if_false]
    | cons m ns =>
      have hcmsq : ((',' : Char) == squoteC) = false := by decide
      have hcmsp : ((',' : Char) == ' ') = false := by decide
      have hcmcm : ((',' : Char) == ',') = true := by decide
      show orderGo ((squoteC :: n.data ++ [squoteC]) ++ ',' ::
        renderOrderQ (m :: ns) ++ ' ' :: d :: c :: t) .nameStart nb ab ps
        = .error ()
      simp only [List.cons_append, List.append_assoc, List.singleton_append,
        List.nil_append]
      rw [orderGo_nameStart]
      simp only [hsp, hsd, Bool.false_eq_true, if_false, hss, if_true]
      rw [orderGo_squote_scan n.data
        (squoteC :: ',' :: (renderOrderQ (m :: ns) ++ ' ' :: d :: c :: t))
        [] [] ps hn]
      rw [orderGo_squote]
      simp only [hss, if_true, hcmsq, Bool.false_eq_true, if_false,
        List.nil_append]
      rw [orderGo_ascStart]
      simp only [hcmsp, Bool.false_eq_true, if_false, hcmcm, if_true]
      exact ih _ _ _ d c t (by simp)
        (fun x hx => hq x (List.mem_cons_of_mem n hx)) hd1 hd2 hc1 hc2

theorem string_mk_append_cons_ne_empty (l : List Char) (c : Char)
    (t : List Char) : String.mk (l ++ c :: t) ≠ "" := by
  intro h
  have h2 : l ++ c :: t = ("" : String).data := congrArg String.data h
  rw [show ("" : String).data = [] from rfl] at h2
  simp at h2

/-- C5 (amended). Both parsers are total (they are plain functions in
this embedding and the source has no throw sites). On a syntax error,
splitNamePath stops at once and returns exactly the segments completed
before the error point, the tail being irrelevant; parseOrderExpression
however returns the empty list on a syntax error in the direction
token, discarding every field accumulated before the error, because the
source returns the orderFields array before the accumulated pairs are
converted into it. -/
theorem claim_C5_amended :
    (∀ (N : List String) (r : Char) (t : List Char),
      N ≠ [] → (∀ n ∈ N, ∀ c ∈ n.data, c ≠ squoteC) → r ≠ '.' →
      r ≠ squoteC →
      ObjectAccessor.splitNamePath (String.mk (renderPath N ++ r :: t)) = N) ∧
    (∀ (N : List String) (d c : Char) (t : List Char),
      N ≠ [] → (∀ n ∈ N, ∀ ch ∈ n.data, ch ≠ squoteC) →
      d ≠ ' ' → d ≠ ',' → descChars.contains c.toLower = false → c ≠ ',' →
      ObjectSorter.parseOrderExpression
        (String.mk (renderOrderQ N ++ ' ' :: d :: c :: t)) = []) := by
  constructor
  · intro N r t h1 h2 h3 h4
    unfold ObjectAccessor.splitNamePath
    have := splitGo_render_go N [] r t h1 h2 h3 h4
    simpa using this
  · intro N d c t h1 h2 h3 h4 h5 h6
    unfold ObjectSorter.parseOrderExpression
    rw [if_neg (string_mk_append_cons_ne_empty _ ' ' _)]
    have := orderGo_render_err N [] [] [] d c t h1 h2 h3 h4 h5 h6
    show (match orderGo (String.mk (renderOrderQ N ++ ' ' :: d :: c :: t)).data
        .nameStart [] [] [] with
      | .error _ => []
      | .ok pairs => pairs.map ObjectSorter.pairToOrderField) = []
    rw [show (String.mk (renderOrderQ N ++ ' ' :: d :: c :: t)).data
      = renderOrderQ N ++ ' ' :: d :: c :: t from rfl]
    rw [this]

/-- C5 witness: concrete error inputs for both parsers. -/
theorem claim_C5_amended_witness :
    ObjectAccessor.splitNamePath
      (String.mk (renderPath ["ab", "cd"] ++ 'x' :: "yz".data))
      = ["ab", "cd"] ∧
    ObjectSorter.parseOrderExpression
      (String.mk (renderOrderQ ["a"] ++ ' ' :: 'b' :: 'x' :: [])) = [] :=
  ⟨claim_C5_amended.1 ["ab", "cd"] 'x' "yz".data (by decide) (by decide)
      (by decide) (by decide),
   claim_C5_amended.2 ["a"] 'b' 'x' [] (by decide) (by decide) (by decide)
      (by decide) (by decide) (by decide)⟩

/-- C5 counterexample: on the malformed order expression the source
returns the empty list, not the one completely-accumulated field that
preceded the error (the field named a, which the same parser does
return when the input stops after the comma). -/
theorem claim_C5_counterexample :
    ObjectSorter.parseOrderExpression "a, b xy" = [] ∧
    ObjectSorter.parseOrderExpression "a," =
      [{ fieldName := "a", isAscendingOrder := true }] ∧
    ([] : List OrderField) ≠
      [{ fieldName := "a", isAscendingOrder := true }] := by
  refine ⟨by decide, by decide, by decide⟩

theorem pairToOrderField_empty_asc (s : String) :
    ObjectSorter.pairToOrderField (s, "") =
      { fieldName := s, isAscendingOrder := true } := by
  unfold ObjectSorter.pairToOrderField
  rw [if_neg]
  intro h
  have := congrArg String.data h
  simp at this

theorem orderGo_flush_nameEnd (nb ab : List Char)
    (ps : List (String × String)) (h : nb.length > 0) :
    orderGo [] .nameEnd nb ab ps = .ok (ps ++ [mkOrderPair nb ab]) := by
  rw [orderGo_nil]
  simp [h]

theorem orderGo_flush_ascStart (nb ab : List Char)
    (ps : List (String × String)) (h : nb.length > 0) :
    orderGo [] .ascStart nb ab ps = .ok (ps ++ [mkOrderPair nb ab]) := by
  rw [orderGo_nil]
  simp [h]

theorem pairToOrderField_mk (nb : List Char) :
    ObjectSorter.pairToOrderField (mkOrderPair nb []) =
      { fieldName := String.mk (jsTrimChars nb), isAscendingOrder := true } := by
  have h : mkOrderPair nb [] = (String.mk (jsTrimChars nb), "") := rfl
  rw [h]
  show (if String.mk (("" : String).data.map Char.toLower) = "desc" then
      ({ fieldName := String.mk (jsTrimChars nb), isAscendingOrder := false }
        : OrderField)
    else { fieldName := String.mk (jsTrimChars nb), isAscendingOrder := true })
    = { fieldName := String.mk (jsTrimChars nb), isAscendingOrder := true }
  rw [if_neg (by decide)]

/-- C9 (amended). The two grammars disagree about trimming, and neither
matches the claim. splitNamePath never trims: a bare segment keeps its
spaces exactly as written (part 1) and a quoted segment is emitted
verbatim (part 2). parseOrderExpression trims every segment when the
accumulated pair is appended, so a bare segment does lose its
surrounding spaces (part 3) but so does a quoted one (part 4). -/
theorem claim_C9_amended :
    (∀ (c : Char) (cs : List Char), c ≠ dquoteC → c ≠ squoteC →
      (∀ ch ∈ c :: cs, ch ≠ '.') →
      ObjectAccessor.splitNamePath (String.mk (c :: cs))
        = [String.mk (c :: cs)]) ∧
    (∀ s : List Char, (∀ ch ∈ s, ch ≠ squoteC) →
      ObjectAccessor.splitNamePath (String.mk (quoteSegL s))
        = [String.mk s]) ∧
    (∀ (pre post ls : List Char) (c0 : Char),
      (∀ ch ∈ pre, ch = ' ') → (∀ ch ∈ post, ch = ' ') →
      c0 ≠ dquoteC → c0 ≠ squoteC →
      (∀ ch ∈ c0 :: ls, ch ≠ ',' ∧ isJsSpace ch = false) →
      ObjectSorter.parseOrderExpression
        (String.mk (pre ++ (c0 :: ls) ++ post))
        = [{ fieldName := String.mk (c0 :: ls), isAscendingOrder := true }]) ∧
    (∀ s : List Char, s ≠ [] → (∀ ch ∈ s, ch ≠ squoteC) →
      ObjectSorter.parseOrderExpression (String.mk (quoteSegL s))
        = [{ fieldName := String.mk (jsTrimChars s),
             isAscendingOrder := true }]) := by
  refine ⟨?_, ?_, ?_, ?_⟩
  · intro c cs hdq hsq hdot
    unfold ObjectAccessor.splitNamePath
    show splitGo (c :: cs) .nameStart [] [] = [String.mk (c :: cs)]
    rw [splitGo_nameStart]
    simp only [show (c == dquoteC) = false by simp [hdq],
      show (c == squoteC) = false by simp [hsq], Bool.false_eq_true, if_false]
    have := splitGo_nameEnd_scan cs [] [c] []
      (fun x hx => hdot x (List.mem_cons_of_mem c hx))
    simp only [List.append_nil] at this
    rw [this]
    simp
  · intro s hs
    unfold ObjectAccessor.splitNamePath
    show splitGo (squoteC :: s ++ [squoteC]) .nameStart [] [] = [String.mk s]
    rw [List.cons_append, splitGo_nameStart]
    simp only [show (squoteC == dquoteC) = false by decide,
      show (squoteC == squoteC) = true by decide, Bool.false_eq_true,
      if_false, if_true]
    rw [splitGo_squote_scan s [squoteC] [] [] hs]
    rw [show ([squoteC] : List Char) = squoteC :: [] from rfl, splitGo_squote]
    simp
  · intro pre post ls c0 hpre hpost hdq hsq hl
    have hnc : c0 ≠ ' ' := by
      intro h
      have := (hl c0 (by simp)).2
      rw [h] at this
      simp [isJsSpace] at this
    unfold ObjectSorter.parseOrderExpression
    rw [if_neg (by
      intro h
      have h2 : pre ++ (c0 :: ls) ++ post = ("" : String).data :=
        congrArg String.data h
      rw [show ("" : String).data = [] from rfl] at h2
      simp at h2)]
    show (match orderGo (pre ++ (c0 :: ls) ++ post) .nameStart [] [] [] with
      | .error _ => []
      | .ok pairs => pairs.map ObjectSorter.pairToOrderField)
      = [{ fieldName := String.mk (c0 :: ls), isAscendingOrder := true }]
    rw [List.append_assoc, orderGo_nameStart_spaces pre _ [] [] [] hpre]
    rw [List.cons_append, orderGo_nameStart]
    simp only [show (c0 == ' ') = false by simp [hnc],
      show (c0 == dquoteC) = false by simp [hdq],
      show (c0 == squoteC) = false by simp [hsq],
      Bool.false_eq_true, if_false]
    rw [orderGo_nameEnd_scan ls post [c0] [] []
      (fun x hx => ⟨(hl x (List.mem_cons_of_mem c0 hx)).1, by
        intro h
        have := (hl x (List.mem_cons_of_mem c0 hx)).2
        rw [h] at this
        simp [isJsSpace] at this⟩)]
    have htrim : jsTrimChars (c0 :: ls) = c0 :: ls :=
      jsTrimChars_of_no_space _ (fun ch hch => (hl ch hch).2)
    cases post with
    | nil =>
      rw [orderGo_flush_nameEnd _ _ _ (by simp)]
      simp only [List.nil_append, List.map_cons, List.map_nil,
        List.singleton_append, pairToOrderField_mk, htrim]
    | cons p ps =>
      have hp : p = ' ' := hpost p (by simp)
      subst hp
      rw [orderGo_nameEnd]
      simp only [show ((' ' : Char) == ',') = false by decide,
        show ((' ' : Char) == ' ') = true by decide,
        Bool.false_eq_true, if_false, if_true]
      have hskip := orderGo_ascStart_spaces ps [] ([c0] ++ ls) [] []
        (fun x hx => hpost x (List.mem_cons_of_mem _ hx))
      simp only [List.append_nil] at hskip
      rw [hskip, orderGo_flush_ascStart _ _ _ (by simp)]
      simp only [List.nil_append, List.map_cons, List.map_nil,
        List.singleton_append, pairToOrderField_mk, htrim]
  · intro s hne hs
    unfold ObjectSorter.parseOrderExpression
    rw [if_neg (by
      intro h
      have h2 : quoteSegL s = ("" : String).data := congrArg String.data h
      rw [show ("" : String).data = [] from rfl] at h2
      simp [quoteSegL] at h2)]
    show (match orderGo (quoteSegL s) .nameStart [] [] [] with
      | .error _ => []
      | .ok pairs => pairs.map ObjectSorter.pairToOrderField)
      = [{ fieldName := String.mk (jsTrimChars s), isAscendingOrder := true }]
    show (match orderGo (squoteC :: s ++ [squoteC]) .nameStart [] [] [] with
      | .error _ => []
      | .ok pairs => pairs.map ObjectSorter.pairToOrderField) = _
    rw [List.cons_append, orderGo_nameStart]
    simp only [show (squoteC == ' ') = false by decide,
      show (squoteC == dquoteC) = false by decide,
      show (squoteC == squoteC) = true by decide, Bool.false_eq_true,
      if_false, if_true]
    rw [orderGo_squote_scan s [squoteC] [] [] [] hs]
    rw [show ([squoteC] : List Char) = squoteC :: [] from rfl, orderGo_squote]
    simp only [show (squoteC == squoteC) = true by decide, if_true,
      List.nil_append]
    have hlen : s.length > 0 := by
      cases s with
      | nil => cases hne rfl
      | cons a t => simp
    rw [orderGo_flush_ascStart _ _ _ hlen]
    simp only [List.nil_append, List.map_cons, List.map_nil,
      pairToOrderField_mk]

/-- C9 witness: concrete inputs exercising each part of the amended
claim. -/
theorem claim_C9_amended_witness :
    ObjectAccessor.splitNamePath (String.mk (' ' :: "a".data))
      = [String.mk (' ' :: "a".data)] ∧
    ObjectAccessor.splitNamePath (String.mk (quoteSegL " a b ".data))
      = [String.mk " a b ".data] ∧
    ObjectSorter.parseOrderExpression
      (String.mk ([' '] ++ ('a' :: "bc".data) ++ [' ']))
      = [{ fieldName := String.mk ('a' :: "bc".data),
           isAscendingOrder := true }] ∧
    ObjectSorter.parseOrderExpression (String.mk (quoteSegL " a ".data))
      = [{ fieldName := String.mk (jsTrimChars " a ".data),
           isAscendingOrder := true }] :=
  ⟨claim_C9_amended.1 ' ' "a".data (by decide) (by decide) (by decide),
   claim_C9_amended.2.1 " a b ".data (by decide),
   claim_C9_amended.2.2.1 [' '] [' '] "bc".data 'a' (by decide) (by decide)
     (by decide) (by decide) (by decide),
   claim_C9_amended.2.2.2 " a ".data (by decide) (by decide)⟩

/-- C9 counterexample: splitNamePath does not trim the bare segments of
a dotted path (the claimed trimming does not happen), and
parseOrderExpression trims a quoted segment (the claimed preservation
does not happen either). -/
theorem claim_C9_counterexample :
    ObjectAccessor.splitNamePath " a.b" = [" a", "b"] ∧
    ([" a", "b"] : List String) ≠ ["a", "b"] ∧
    ObjectSorter.parseOrderExpression (String.mk (quoteSegL " a ".data))
      = [{ fieldName := "a", isAscendingOrder := true }] ∧
    ([{ fieldName := "a", isAscendingOrder := true }] : List OrderField)
      ≠ [{ fieldName := " a ", isAscendingOrder := true }] := by
  refine ⟨by decide, by decide, by decide, by decide⟩

/-! ## Accessor lookup lemmas (C8, C10) -/

theorem lookupSegs_undef (l : List String) :
    ObjectAccessor.lookupSegs vUndef l = .ok vUndef := by
  cases l <;> rfl

theorem lookupSegs_append (a : List String) :
    ∀ (v : JSVal) (b : List String),
      ObjectAccessor.lookupSegs v (a ++ b)
        = match ObjectAccessor.lookupSegs v a with
          | .error e => .error e
          | .ok u => ObjectAccessor.lookupSegs u b := by
  induction a with
  | nil => intro v b; cases v <;> rfl
  | cons n ns ih =>
    intro v b
    cases v with
    | vUndef => rw [lookupSegs_undef]; simp [lookupSegs_undef]
    | vNull => rfl
    | vBool x => exact ih _ b
    | vNum x => exact ih _ b
    | vStr x => exact ih _ b
    | vBigInt x => exact ih _ b
    | vDate x => exact ih _ b
    | vFunc => exact ih _ b
    | vArr x => exact ih _ b
    | vObj x => exact ih _ b

theorem lookupSegs_error_null :
    ∀ (ns : List String) (v : JSVal),
      ObjectAccessor.lookupSegs v ns = .error () →
      ∃ (ns₁ : List String) (n : String) (ns₂ : List String),
        ns = ns₁ ++ n :: ns₂ ∧
        ObjectAccessor.lookupSegs v ns₁ = .ok vNull := by
  intro ns
  induction ns with
  | nil => intro v h; simp [ObjectAccessor.lookupSegs] at h
  | cons n ns ih =>
    intro v h
    cases v with
    | vUndef => rw [lookupSegs_undef] at h; cases h
    | vNull => exact ⟨[], n, ns, rfl, rfl⟩
    | vBool x =>
      obtain ⟨a, m, b, hab, hnull⟩ := ih _ h
      exact ⟨n :: a, m, b, by rw [hab]; simp, hnull⟩
    | vNum x =>
      obtain ⟨a, m, b, hab, hnull⟩ := ih _ h
      exact ⟨n :: a, m, b, by rw [hab]; simp, hnull⟩
    | vStr x =>
      obtain ⟨a, m, b, hab, hnull⟩ := ih _ h
      exact ⟨n :: a, m, b, by rw [hab]; simp, hnull⟩
    | vBigInt x =>
      obtain ⟨a, m, b, hab, hnull⟩ := ih _ h
      exact ⟨n :: a, m, b, by rw [hab]; simp, hnull⟩
    | vDate x =>
      obtain ⟨a, m, b, hab, hnull⟩ := ih _ h
      exact ⟨n :: a, m, b, by rw [hab]; simp, hnull⟩
    | vFunc =>
      obtain ⟨a, m, b, hab, hnull⟩ := ih _ h
      exact ⟨n :: a, m, b, by rw [hab]; simp, hnull⟩
    | vArr x =>
      obtain ⟨a, m, b, hab, hnull⟩ := ih _ h
      exact ⟨n :: a, m, b, by rw [hab]; simp, hnull⟩
    | vObj x =>
      obtain ⟨a, m, b, hab, hnull⟩ := ih _ h
      exact ⟨n :: a, m, b, by rw [hab]; simp, hnull⟩

/-- C8 (amended). The name-path lookup returns explicit Undefined
whenever a segment is not an own enumerable key of the value reached so
far (including when that value is a primitive or Undefined), and the
remaining segments are then irrelevant; but when an intermediate
segment resolves to Null with segments remaining, Object.keys(null)
raises a TypeError instead of yielding Undefined, and every thrown
error arises in exactly that way. -/
theorem claim_C8_amended :
    (∀ (obj : JSVal) (text : String) (ns₁ : List String) (n : String)
       (ns₂ : List String) (u : JSVal),
      ObjectAccessor.splitNamePath text = ns₁ ++ n :: ns₂ →
      ObjectAccessor.lookupSegs obj ns₁ = .ok u → u ≠ vNull →
      n ∉ jsOwnEnumKeys u →
      ObjectAccessor.getPropertyValueByNamePath obj text = .ok vUndef) ∧
    (∀ (obj : JSVal) (text : String),
      ObjectAccessor.getPropertyValueByNamePath obj text = .error () →
      ∃ (ns₁ : List String) (n : String) (ns₂ : List String),
        ObjectAccessor.splitNamePath text = ns₁ ++ n :: ns₂ ∧
        ObjectAccessor.lookupSegs obj ns₁ = .ok vNull) := by
  constructor
  · intro obj text ns₁ n ns₂ u hsplit hok hnn hnm
    unfold ObjectAccessor.getPropertyValueByNamePath
    rw [hsplit, lookupSegs_append, hok]
    have hcont : (jsOwnEnumKeys u).contains n = false := by
      rw [List.contains_eq_any_beq, List.any_eq_false]
      intro x hx
      simp only [beq_iff_eq]
      intro hxe
      exact hnm (hxe ▸ hx)
    cases u with
    | vUndef => exact lookupSegs_undef _
    | vNull => cases hnn rfl
    | vBool x =>
      show ObjectAccessor.lookupSegs
        (if (jsOwnEnumKeys (vBool x)).contains n then jsOwnGetD (vBool x) n
          else vUndef) ns₂ = .ok vUndef
      rw [hcont]
      simp [lookupSegs_undef]
    | vNum x =>
      show ObjectAccessor.lookupSegs
        (if (jsOwnEnumKeys (vNum x)).contains n then jsOwnGetD (vNum x) n
          else vUndef) ns₂ = .ok vUndef
      rw [hcont]
      simp [lookupSegs_undef]
    | vStr x =>
      show ObjectAccessor.lookupSegs
        (if (jsOwnEnumKeys (vStr x)).contains n then jsOwnGetD (vStr x) n
          else vUndef) ns₂ = .ok vUndef
      rw [hcont]
      simp [lookupSegs_undef]
    | vBigInt x =>
      show ObjectAccessor.lookupSegs
        (if (jsOwnEnumKeys (vBigInt x)).contains n then jsOwnGetD (vBigInt x) n
          else vUndef) ns₂ = .ok vUndef
      rw [hcont]
      simp [lookupSegs_undef]
    | vDate x =>
      show ObjectAccessor.lookupSegs
        (if (jsOwnEnumKeys (vDate x)).contains n then jsOwnGetD (vDate x) n
          else vUndef) ns₂ = .ok vUndef
      rw [hcont]
      simp [lookupSegs_undef]
    | vFunc =>
      show ObjectAccessor.lookupSegs
        (if (jsOwnEnumKeys vFunc).contains n then jsOwnGetD vFunc n
          else vUndef) ns₂ = .ok vUndef
      rw [hcont]
      simp [lookupSegs_undef]
    | vArr x =>
      show ObjectAccessor.lookupSegs
        (if (jsOwnEnumKeys (vArr x)).contains n then jsOwnGetD (vArr x) n
          else vUndef) ns₂ = .ok vUndef
      rw [hcont]
      simp [lookupSegs_undef]
    | vObj x =>
      show ObjectAccessor.lookupSegs
        (if (jsOwnEnumKeys (vObj x)).contains n then jsOwnGetD (vObj x) n
          else vUndef) ns₂ = .ok vUndef
      rw [hcont]
      simp [lookupSegs_undef]
  · intro obj text herr
    exact lookupSegs_error_null _ _ herr

/-- C8 witness: an absent second segment under a defined intermediate
yields ok-Undefined, and the error case decomposes through a Null
intermediate. -/
theorem claim_C8_amended_witness :
    ObjectAccessor.getPropertyValueByNamePath
      (vObj [("a", vObj [("b", vNum 1)])]) "a.c" = .ok vUndef ∧
    (∃ (ns₁ : List String) (n : String) (ns₂ : List String),
      ObjectAccessor.splitNamePath "a.b" = ns₁ ++ n :: ns₂ ∧
      ObjectAccessor.lookupSegs (vObj [("a", vNull)]) ns₁ = .ok vNull) :=
  ⟨claim_C8_amended.1 (vObj [("a", vObj [("b", vNum 1)])]) "a.c" ["a"] "c" []
      (vObj [("b", vNum 1)]) (by rfl) (by rfl) (by simp) (by decide),
   claim_C8_amended.2 (vObj [("a", vNull)]) "a.b" (by rfl)⟩

/-- C8 counterexample: with an intermediate Null the lookup throws a
TypeError (Object.keys(null)) instead of returning Undefined as the
claim asserts. -/
theorem claim_C8_counterexample :
    ObjectAccessor.getPropertyValueByNamePath (vObj [("a", vNull)]) "a.b"
      = .error () ∧
    (Except.error () : Except Unit JSVal) ≠ .ok vUndef := by
  constructor
  · rfl
  · simp

theorem natKeyAux_digits :
    ∀ (fuel n : Nat), ∀ c ∈ natKeyAux fuel n,
      48 ≤ c.toNat ∧ c.toNat ≤ 57 := by
  intro fuel
  induction fuel with
  | zero => intro n c hc; simp [natKeyAux] at hc
  | succ f ih =>
    intro n c hc
    by_cases h10 : n < 10
    · simp only [natKeyAux, h10, if_true, List.mem_singleton] at hc
      subst hc
      unfold digitChar10
      interval_cases n <;> decide
    · simp only [natKeyAux, h10, if_false, List.mem_append,
        List.mem_singleton] at hc
      rcases hc with hc | hc
      · exact ih (n / 10) c hc
      · subst hc
        unfold digitChar10
        have hm := Nat.mod_lt n (show 0 < 10 by omega)
        set m := n % 10 with hmdef
        interval_cases m <;> decide

theorem natKey_ne_length (i : Nat) : natKey i ≠ "length" := by
  intro h
  have hdata : natKeyAux (i + 1) i = "length".data := congrArg String.data h
  have hl : ('l' : Char) ∈ natKeyAux (i + 1) i := by
    rw [hdata]
    decide
  have := natKeyAux_digits (i + 1) i 'l' hl
  revert this
  decide

theorem length_not_mem_idxKeys (n : Nat) : "length" ∉ idxKeys n := by
  intro h
  simp only [idxKeys, List.mem_map] at h
  obtain ⟨i, _, hk⟩ := h
  exact natKey_ne_length i hk

/-- C10 (confirmed). The lookup of getPropertyValueByNamePath consults
only own enumerable keys: a single-segment path naming anything that is
not an own enumerable field of a plain object resolves to Undefined
(part 1) even though the raw JavaScript property read would surface the
inherited Object.prototype member, a function (part 2); likewise the
path segment length on an array resolves to Undefined (part 3) even
though the raw read yields the array length (part 4). -/
theorem claim_C10_own_enumerable_only :
    (∀ (fields : List (String × JSVal)) (text : String) (nm : String),
      ObjectAccessor.splitNamePath text = [nm] →
      (∀ p ∈ fields, p.1 ≠ nm) →
      ObjectAccessor.getPropertyValueByNamePath (vObj fields) text
        = .ok vUndef) ∧
    (∀ (fields : List (String × JSVal)) (nm : String),
      nm ∈ objectProtoNames → (∀ p ∈ fields, p.1 ≠ nm) →
      jsRawGet (vObj fields) nm = vFunc) ∧
    (∀ (xs : List JSVal) (text : String),
      ObjectAccessor.splitNamePath text = ["length"] →
      ObjectAccessor.getPropertyValueByNamePath (vArr xs) text
        = .ok vUndef) ∧
    (∀ xs : List JSVal, jsRawGet (vArr xs) "length" = vNum xs.length) := by
  refine ⟨?_, ?_, ?_, ?_⟩
  · intro fields text nm hsplit hnm
    refine claim_C8_amended.1 (vObj fields) text [] nm [] (vObj fields)
      (by simpa using hsplit) rfl (by simp) ?_
    simp only [jsOwnEnumKeys, List.mem_map]
    rintro ⟨p, hp, hpe⟩
    exact hnm p hp hpe
  · intro fields nm hproto hnm
    unfold jsRawGet
    have hlk : fields.lookup nm = none := by
      induction fields with
      | nil => rfl
      | cons p t ih =>
        have h1 : (nm == p.1) = false := by
          simp only [beq_eq_false_iff_ne]
          intro h
          exact hnm p (List.mem_cons_self p t) h.symm
        obtain ⟨a, b⟩ := p
        simp only [List.lookup] at *
        rw [h1]
        simp only [Bool.false_eq_true, if_false]
        exact ih (fun q hq => hnm q (List.mem_cons_of_mem _ hq))
    show (match jsOwnGet? (vObj fields) nm with
      | some x => x
      | none => jsProtoGet (vObj fields) nm) = vFunc
    rw [show jsOwnGet? (vObj fields) nm = fields.lookup nm from rfl, hlk]
    simp [jsProtoGet, hproto]
  · intro xs text hsplit
    refine claim_C8_amended.1 (vArr xs) text [] "length" [] (vArr xs)
      (by simpa using hsplit) rfl (by simp) ?_
    exact length_not_mem_idxKeys xs.length
  · intro xs
    unfold jsRawGet
    have hown : jsOwnGet? (vArr xs) "length" = none := by
      show (match idxOf? xs.length "length" with
        | some i => xs.get? i
        | none => none) = none
      have : idxOf? xs.length "length" = none := by
        unfold idxOf?
        rw [List.find?_eq_none]
        intro i _
        simp only [beq_iff_eq]
        exact natKey_ne_length i
      rw [this]
    rw [hown]
    rfl

/-- C10 witness: the inherited member toString and the array length
property both resolve to Undefined through the accessor while the raw
reads see them. -/
theorem claim_C10_witness :
    ObjectAccessor.getPropertyValueByNamePath (vObj [("a", vNum 1)])
      "toString" = .ok vUndef ∧
    jsRawGet (vObj [("a", vNum 1)]) "toString" = vFunc ∧
    ObjectAccessor.getPropertyValueByNamePath (vArr [vNum 7, vNum 8])
      "length" = .ok vUndef ∧
    jsRawGet (vArr [vNum 7, vNum 8]) "length" = vNum 2 :=
  ⟨claim_C10_own_enumerable_only.1 [("a", vNum 1)] "toString" "toString"
      (by rfl) (by simp),
   claim_C10_own_enumerable_only.2.1 [("a", vNum 1)] "toString" (by decide)
      (by simp),
   claim_C10_own_enumerable_only.2.2.1 [vNum 7, vNum 8] "length" (by rfl),
   claim_C10_own_enumerable_only.2.2.2 [vNum 7, vNum 8]⟩

/-! ## Sorter (objectsorter.js): compareField, compareObject, sort -/

/-- Numeric coercion used by the JavaScript relational operators for
the value kinds this library compares (numbers, booleans, dates,
bigints). -/
def jsToNumber? : JSVal → Option Int
  | vNum n => some n
  | vBool b => some (if b then 1 else 0)
  | vDate ms => some ms
  | vBigInt n => some n
  | _ => none

/-- Model of the JavaScript comparison a < b for the kinds the sorter
can reach: two strings compare lexicographically, numeric kinds
(numbers, booleans, dates, bigints) compare by numeric coercion, and
every other combination is modelled as incomparable (false), matching
the NaN outcome of the untyped comparison. No verified property
depends on the exotic string-to-number coercions. -/
def jsLess (a b : JSVal) : Bool :=
  match a, b with
  | vStr x, vStr y => x < y
  | _, _ =>
    match jsToNumber? a, jsToNumber? b with
    | some x, some y => x < y
    | _, _ => false

/-- The value comparison at the end of compareField, applied to the two
resolved values: undefined sorts first, then null, then the relational
comparison. -/
def compareValues (leftValue rightValue : JSVal) : Int :=
  match leftValue, rightValue with
  | vUndef, vUndef => 0
  | vUndef, _ => -1
  | _, vUndef => 1
  | vNull, vNull => 0
  | vNull, _ => -1
  | _, vNull => 1
  | l, r => if jsLess l r then -1 else if jsLess r l then 1 else 0

namespace ObjectSorter

/-- Model of ObjectSorter.compareField: resolve both operands through
the accessor (which can throw on a null intermediate) and compare the
resolved values. -/
def compareField (leftItemObject rightItemObject : JSVal)
    (namePath : String) : Except Unit Int := do
  let lv ← ObjectAccessor.getPropertyValueByNamePath leftItemObject namePath
  let rv ← ObjectAccessor.getPropertyValueByNamePath rightItemObject namePath
  pure (compareValues lv rv)

/-- Model of ObjectSorter.compareObject: first field with a nonzero
comparison decides, negated when that field is descending; all ties
give zero. -/
def compareObject (leftItemObject rightItemObject : JSVal) :
    List OrderField → Except Unit Int
  | [] => .ok 0
  | f :: fs => do
    let fieldResult ← compareField leftItemObject rightItemObject f.fieldName
    if fieldResult = 0 then compareObject leftItemObject rightItemObject fs
    else pure (if f.isAscendingOrder then fieldResult else -fieldResult)

/-- Stable insertion used to model Array.prototype.sort, which
ECMAScript requires to be stable: an element is placed before the first
element of the sorted tail that it does not compare after. -/
def insertSorted (cmp : JSVal → JSVal → Except Unit Int) (x : JSVal) :
    List JSVal → Except Unit (List JSVal)
  | [] => .ok [x]
  | y :: ys => do
    let c ← cmp x y
    if c ≤ 0 then .ok (x :: y :: ys)
    else do
      let t ← insertSorted cmp x ys
      .ok (y :: t)

/-- Stable comparator sort modelling Array.prototype.sort with the
comparator used by ObjectSorter.sort (the source sorts in place; the
model returns the sorted list). -/
def sortWith (cmp : JSVal → JSVal → Except Unit Int) :
    List JSVal → Except Unit (List JSVal)
  | [] => .ok []
  | x :: xs => do
    let s ← sortWith cmp xs
    insertSorted cmp x s

/-- Model of ObjectSorter.sort. -/
def sort (itemObjects : List JSVal) (orderFields : List OrderField) :
    Except Unit (List JSVal) :=
  sortWith (fun a b => compareObject a b orderFields) itemObjects

/-- Model of ObjectSorter.sortByOrderExpression. -/
def sortByOrderExpression (itemObjects : List JSVal)
    (orderExpression : String) : Except Unit (List JSVal) :=
  sort itemObjects (parseOrderExpression orderExpression)

end ObjectSorter

/-- C7 (confirmed). In compareField a single Undefined side compares
smallest, then a single Null side; compareObject negates the plus or
minus one (or zero) of compareField uniformly for a descending field,
including the Undefined and Null cases; compareField is the comparison
of the two resolved values; and sorting the concrete collection of an
undefined-valued, a null-valued and a number-valued object by the
ascending field a leaves the undefined and null items, in their stable
relative order, before the number-valued one. -/
theorem claim_C7_compare_order :
    (∀ rv : JSVal, rv ≠ vUndef → compareValues vUndef rv = -1) ∧
    (∀ lv : JSVal, lv ≠ vUndef → compareValues lv vUndef = 1) ∧
    (∀ rv : JSVal, rv ≠ vUndef → rv ≠ vNull → compareValues vNull rv = -1) ∧
    (∀ lv : JSVal, lv ≠ vUndef → lv ≠ vNull → compareValues lv vNull = 1) ∧
    (∀ (l r : JSVal) (name : String) (lv rv : JSVal),
      ObjectAccessor.getPropertyValueByNamePath l name = .ok lv →
      ObjectAccessor.getPropertyValueByNamePath r name = .ok rv →
      ObjectSorter.compareField l r name = .ok (compareValues lv rv)) ∧
    (∀ (l r : JSVal) (name : String) (asc : Bool) (fr : Int),
      ObjectSorter.compareField l r name = .ok fr →
      ObjectSorter.compareObject l r [⟨name, asc⟩]
        = .ok (if asc then fr else -fr)) ∧
    ObjectSorter.sortByOrderExpression
      [vObj [("a", vUndef)], vObj [("a", vNull)], vObj [("a", vNum 1)]] "a"
      = .ok [vObj [("a", vUndef)], vObj [("a", vNull)], vObj [("a", vNum 1)]] := by
  refine ⟨?_, ?_, ?_, ?_, ?_, ?_, ?_⟩
  · intro rv h
    cases rv <;> first | rfl | (cases h rfl)
  · intro lv h
    cases lv <;> first | rfl | (cases h rfl)
  · intro rv h1 h2
    cases rv <;> first | rfl | (cases h1 rfl) | (cases h2 rfl)
  · intro lv h1 h2
    cases lv <;> first | rfl | (cases h1 rfl) | (cases h2 rfl)
  · intro l r name lv rv hl hr
    unfold ObjectSorter.compareField
    rw [hl, hr]
    rfl
  · intro l r name asc fr hcf
    unfold ObjectSorter.compareObject
    rw [hcf]
    show (if fr = 0 then ObjectSorter.compareObject l r []
      else pure (if asc then fr else -fr)) = .ok (if asc then fr else -fr)
    by_cases h0 : fr = 0
    · subst h0
      simp [ObjectSorter.compareObject]
    · rw [if_neg h0]
      rfl
  · rfl

/-- C7 witness: the comparison rules applied at concrete values. -/
theorem claim_C7_compare_order_witness :
    compareValues vUndef (vNum 1) = -1 ∧
    compareValues (vNum 1) vUndef = 1 ∧
    compareValues vNull (vNum 1) = -1 ∧
    compareValues (vNum 1) vNull = 1 ∧
    ObjectSorter.compareField (vObj [("a", vUndef)]) (vObj [("a", vNull)]) "a"
      = .ok (compareValues vUndef vNull) ∧
    ObjectSorter.compareObject (vObj [("a", vNum 1)]) (vObj [("a", vNull)])
      [{ fieldName := "a", isAscendingOrder := false }] = .ok (-1) :=
  ⟨claim_C7_compare_order.1 (vNum 1) (by simp),
   claim_C7_compare_order.2.1 (vNum 1) (by simp),
   claim_C7_compare_order.2.2.1 (vNum 1) (by simp) (by simp),
   claim_C7_compare_order.2.2.2.1 (vNum 1) (by simp) (by simp),
   claim_C7_compare_order.2.2.2.2.1 (vObj [("a", vUndef)])
     (vObj [("a", vNull)]) "a" vUndef vNull (by rfl) (by rfl),
   by
     have := claim_C7_compare_order.2.2.2.2.2.1 (vObj [("a", vNum 1)])
       (vObj [("a", vNull)]) "a" false 1 (by rfl)
     simpa using this⟩

/-! ## Deep equality (objectutils.js: equals, objectEquals, arrayEquals,
dateEquals) -/

/-- Test for undefined. -/
def isUndef : JSVal → Bool
  | vUndef => true
  | _ => false

/-- Test for null. -/
def isNull : JSVal → Bool
  | vNull => true
  | _ => false

/-- Model of instanceof Date. -/
def isJsDate : JSVal → Bool
  | vDate _ => true
  | _ => false

/-- Model of Array.isArray. -/
def isJsArray : JSVal → Bool
  | vArr _ => true
  | _ => false

/-- Model of the test typeof x === the string object: true for null,
arrays, dates and plain objects. -/
def typeofObject : JSVal → Bool
  | vNull => true
  | vArr _ => true
  | vObj _ => true
  | vDate _ => true
  | _ => false

/-- Model of the test typeof x === the string function. -/
def isJsFunction : JSVal → Bool
  | vFunc => true
  | _ => false

/-- Model of JavaScript strict equality (===) for the positions where
the embedded code applies it: at least one operand is then a primitive,
undefined, or a function. Two containers are compared by reference in
JavaScript; distinct values of this embedding stand for distinct
references, so container pairs are modelled as unequal. -/
def jsStrictEq : JSVal → JSVal → Bool
  | vUndef, vUndef => true
  | vNull, vNull => true
  | vBool a, vBool b => a == b
  | vNum a, vNum b => a == b
  | vStr a, vStr b => a == b
  | vBigInt a, vBigInt b => a == b
  | vFunc, vFunc => true
  | _, _ => false

namespace ObjectUtils

/-- Model of ObjectUtils.dateEquals. -/
def dateEquals (leftDate rightDate : JSVal) : Bool :=
  if isUndef leftDate && isUndef rightDate then true
  else if isUndef leftDate || isUndef rightDate then false
  else if isNull leftDate && isNull rightDate then true
  else if isNull leftDate || isNull rightDate then false
  else
    match leftDate, rightDate with
    | vDate a, vDate b => a == b
    | _, _ => false

mutual

/-- Model of ObjectUtils.equals: undefined and null first, then
instanceof Date on the left, Array.isArray on the left, typeof object
(note that the right-hand test typeof right === object also accepts
arrays and dates, so a plain object on the left is compared with
objectEquals against an array or a date on the right), and finally
strict equality. -/
def equals (left right : JSVal) : Bool :=
  if isUndef left && isUndef right then true
  else if isUndef left || isUndef right then false
  else if isNull left && isNull right then true
  else if isNull left || isNull right then false
  else if isJsDate left then
    if isJsDate right then dateEquals left right else false
  else if isJsArray left then
    if isJsArray right then arrayEquals left right else false
  else if typeofObject left then
    if typeofObject right then objectEquals left right else false
  else jsStrictEq left right

/-- Model of ObjectUtils.objectEquals. After the undefined, null and
Date cases, a left operand of typeof object (a plain object, or an
array reaching this function through the recursion) is compared
key by key: the own enumerable key sets must have equal size, every
left key must exist on the right, and each value pair is dispatched by
kind. The source also contains a comparison of the key (not the value)
against undefined;
keys produced by Object.keys are strings, so that branch never fires
and is not modelled. -/
def objectEquals (leftObject rightObject : JSVal) : Bool :=
  if isUndef leftObject && isUndef rightObject then true
  else if isUndef leftObject || isUndef rightObject then false
  else if isNull leftObject && isNull rightObject then true
  else if isNull leftObject || isNull rightObject then false
  else if isJsDate leftObject then
    if isJsDate rightObject then dateEquals leftObject rightObject else false
  else if typeofObject leftObject then
    if typeofObject rightObject then
      if (jsOwnPairs leftObject).length ≠ (jsOwnEnumKeys rightObject).length
        then false
      else if (jsOwnPairs leftObject).length = 0 then true
      else objEqLoop (jsOwnPairs leftObject) rightObject
    else false
  else jsStrictEq leftObject rightObject
termination_by 3 * (sizeOf leftObject + sizeOf rightObject) + 1
decreasing_by
  simp_wf
  have hp := pairsSize_ownPairs_lt leftObject
  omega

/-- The keyValue loop of objectEquals: each left key must be an own
enumerable key of the right object (rightKeys.indexOf(leftKey) check),
and the two values are then compared by kind. -/
def objEqLoop (lps : List (String × JSVal)) (rightObject : JSVal) : Bool :=
  match lps with
  | [] => true
  | (k, lv) :: rest =>
    if (jsOwnEnumKeys rightObject).contains k then
      elemEq lv (jsOwnGetD rightObject k) && objEqLoop rest rightObject
    else false
termination_by 3 * (pairsSize lps + sizeOf rightObject)
decreasing_by
  all_goals simp_wf
  all_goals simp only [pairsSize, List.map_cons, List.sum_cons]
  · have hg := jsOwnGetD_sizeOf_le rightObject k
    omega
  · omega

/-- The per-value dispatch of the objectEquals loop: arrays, then null,
then dates, then nested objects, then strict equality. -/
def elemEq (lv rv : JSVal) : Bool :=
  if isJsArray lv then (if isJsArray rv then arrayEquals lv rv else false)
  else if isNull lv then isNull rv
  else if isJsDate lv then (if isJsDate rv then dateEquals lv rv else false)
  else if typeofObject lv then
    (if typeofObject rv then objectEquals lv rv else false)
  else jsStrictEq lv rv
termination_by 3 * (sizeOf lv + sizeOf rv) + 2

/-- Model of ObjectUtils.arrayEquals. -/
def arrayEquals (leftArray rightArray : JSVal) : Bool :=
  if isUndef leftArray && isUndef rightArray then true
  else if isUndef leftArray || isUndef rightArray then false
  else if isNull leftArray && isNull rightArray then true
  else if isNull leftArray || isNull rightArray then false
  else if !(isJsArray leftArray) || !(isJsArray rightArray) then false
  else
    match leftArray, rightArray with
    | vArr xs, vArr ys =>
      if xs.length ≠ ys.length then false
      else if xs.length = 0 then true
      else arrEqLoop xs ys
    | _, _ => false
termination_by 3 * (sizeOf leftArray + sizeOf rightArray) + 1

/-- The index loop of arrayEquals; an index beyond the right array
would read undefined, which is modelled by the second and third
equations (unreachable when the lengths agree). -/
def arrEqLoop : List JSVal → List JSVal → Bool
  | [], _ => true
  | lv :: ls, rv :: rs => arrElemEq lv rv && arrEqLoop ls rs
  | lv :: ls, [] => arrElemEq lv vUndef && arrEqLoop ls []
termination_by ls rs => 3 * (sizeOf ls + sizeOf rs)

/-- The per-element dispatch of the arrayEquals loop: an explicit
undefined test first, then the same kind dispatch as for object
values. -/
def arrElemEq (lv rv : JSVal) : Bool :=
  if isUndef lv then isUndef rv
  else if isJsArray lv then (if isJsArray rv then arrayEquals lv rv else false)
  else if isNull lv then isNull rv
  else if isJsDate lv then (if isJsDate rv then dateEquals lv rv else false)
  else if typeofObject lv then
    (if typeofObject rv then objectEquals lv rv else false)
  else jsStrictEq lv rv
termination_by 3 * (sizeOf lv + sizeOf rv) + 2

end

end ObjectUtils

/-- C6 (amended). A Date on the left is unequal to any non-Date; an
array on the left is unequal to any non-array; but a plain object on
the left is not rejected against an array or a Date on the right: the
typeof test accepts both, so equals falls through to the key-by-key
comparison of objectEquals (which can succeed, as the counterexample
shows). -/
theorem claim_C6_kind_mismatch :
    (∀ l r : JSVal, isJsDate l = true → isJsDate r = false →
      ObjectUtils.equals l r = false) ∧
    (∀ l r : JSVal, isJsArray l = true → isJsArray r = false →
      ObjectUtils.equals l r = false) ∧
    (∀ (fs : List (String × JSVal)) (r : JSVal),
      (isJsDate r || isJsArray r) = true →
      ObjectUtils.equals (vObj fs) r = ObjectUtils.objectEquals (vObj fs) r)
    := by
  refine ⟨?_, ?_, ?_⟩
  · intro l r hl hr
    cases l <;> simp [isJsDate] at hl
    cases r <;>
      simp_all [ObjectUtils.equals, ObjectUtils.dateEquals, isUndef, isNull,
        isJsDate, isJsArray, typeofObject, jsStrictEq]
  · intro l r hl hr
    cases l <;> simp [isJsArray] at hl
    cases r <;>
      simp_all [ObjectUtils.equals, isUndef, isNull, isJsDate, isJsArray,
        typeofObject, jsStrictEq]
  · intro fs r hr
    cases r <;> simp [isJsDate, isJsArray] at hr <;>
      simp [ObjectUtils.equals, isUndef, isNull, isJsDate, isJsArray,
        typeofObject]

/-- C6 witness: concrete mismatches that are rejected, and one that
falls through to the key comparison. -/
theorem claim_C6_kind_mismatch_witness :
    ObjectUtils.equals (vDate 3) (vArr []) = false ∧
    ObjectUtils.equals (vArr []) (vObj []) = false ∧
    ObjectUtils.equals (vObj [("a", vNum 1)]) (vArr [])
      = ObjectUtils.objectEquals (vObj [("a", vNum 1)]) (vArr []) :=
  ⟨claim_C6_kind_mismatch.1 (vDate 3) (vArr []) (by rfl) (by rfl),
   claim_C6_kind_mismatch.2.1 (vArr []) (vObj []) (by rfl) (by rfl),
   claim_C6_kind_mismatch.2.2 [("a", vNum 1)] (vArr []) (by rfl)⟩

/-- C6 counterexample: an empty plain object compares equal to an empty
array, and also to a Date (whose own enumerable key set is empty), even
though the claim requires every such kind mismatch to yield false. -/
theorem claim_C6_counterexample :
    ObjectUtils.equals (vObj []) (vArr []) = true ∧
    ObjectUtils.equals (vObj []) (vDate 0) = true := by
  constructor
  · simp [ObjectUtils.equals, ObjectUtils.objectEquals.eq_def, isUndef,
      isNull, isJsDate, isJsArray, typeofObject, jsOwnPairs, jsOwnEnumKeys,
      idxKeys]
  · simp [ObjectUtils.equals, ObjectUtils.objectEquals.eq_def, isUndef,
      isNull, isJsDate, isJsArray, typeofObject, jsOwnPairs, jsOwnEnumKeys,
      idxKeys]

/-! ## Merge and clone (objectutils.js: _objectMerge, _arrayClone, _clone,
and their public wrappers objectMerge, objectClone, arrayClone, clone) -/

/-- The keyValueModifyFuncs argument: a map from a key name path to a
value-modification function. The JavaScript code guards every use with
`keyValueModifyFuncs !== undefined` before indexing; an absent map and a
map without a matching entry both yield no function, so the two checks
are modelled by a single partial lookup. -/
def Mods : Type := String → Option (JSVal → JSVal)

/-- The omitted keyValueModifyFuncs argument. -/
def mods0 : Mods := fun _ => none

/-- keyNamePath construction of _objectMerge: the key itself when
objectNamePath is undefined (top level), otherwise the dotted path. -/
def mkPath : Option String → String → String
  | none, k => k
  | some p, k => p ++ "." ++ k

/-- elementNamePath construction of _arrayClone. -/
def elemPath : Option String → String
  | none => "[]"
  | some p => p ++ "." ++ "[]"

/-- JavaScript property assignment `obj[k] = v` on a plain object: an
existing key keeps its position and receives the new value, a new key
is appended in insertion order. -/
def objSet : List (String × JSVal) → String → JSVal → List (String × JSVal)
  | [], k, v => [(k, v)]
  | (k0, v0) :: rest, k, v =>
    if k0 = k then (k0, v) :: rest else (k0, v0) :: objSet rest k v

namespace ObjectUtils

mutual

/-- Model of ObjectUtils._objectMerge: a fresh target object is filled
by the loop over the source object's own enumerable keyValues
(`mergeL1`) and then by the loop over the default object's own
enumerable keyValues (`mergeL2`). -/
def jsMerge (sourceObject defaultObject : JSVal) (mods : Mods)
    (objectNamePath : Option String) : JSVal :=
  vObj (mergeL2 (jsOwnPairs defaultObject) sourceObject mods objectNamePath
    (mergeL1 (jsOwnPairs sourceObject) defaultObject mods objectNamePath []))
termination_by 3 * (sizeOf sourceObject + sizeOf defaultObject)
decreasing_by
  all_goals simp_wf
  all_goals
    (have h1 := pairsSize_ownPairs_lt sourceObject
     have h2 := pairsSize_ownPairs_lt defaultObject
     omega)

/-- The first loop of _objectMerge, over the source object's own
enumerable keyValues: a matching modification function wins (the getD
head); otherwise the source value is copied by the kind dispatch of
`l1Clone`. The source skips the dispatch entirely when a modification
function matches (continue); both functions are pure, so computing the
unused branch is unobservable. -/
def mergeL1 (ps : List (String × JSVal)) (defaultObject : JSVal)
    (mods : Mods) (objectNamePath : Option String)
    (targetObject : List (String × JSVal)) : List (String × JSVal) :=
  match ps with
  | [] => targetObject
  | (sourceObjectKey, sourceValue) :: rest =>
    mergeL1 rest defaultObject mods objectNamePath
      (objSet targetObject sourceObjectKey
        (((mods (mkPath objectNamePath sourceObjectKey)).map
            (fun keyValueModifyFunc => keyValueModifyFunc sourceValue)).getD
          (l1Clone sourceObjectKey sourceValue defaultObject mods
            objectNamePath)))
termination_by 3 * (pairsSize ps + sizeOf defaultObject) + 2
decreasing_by
  all_goals simp_wf
  all_goals simp only [pairsSize, List.map_cons, List.sum_cons]
  all_goals omega

/-- The kind dispatch of the first merge loop, applied to a source
value without a matching modification function: undefined stays,
an array is cloned element by element (_arrayClone), null stays, a
Date is copied (dateClone), a nested object is deep-merged when the
default object has a plain-object value under the same key and
deep-cloned otherwise (_objectClone), a function becomes undefined,
and a primitive is copied. -/
def l1Clone (sourceObjectKey : String) (sourceValue defaultObject : JSVal)
    (mods : Mods) (objectNamePath : Option String) : JSVal :=
  match sourceValue with
  | vUndef => vUndef
  | vArr xs =>
    vArr (jsArrayClone xs mods
      (some (mkPath objectNamePath sourceObjectKey)))
  | vNull => vNull
  | vDate ms => vDate ms
  | vObj svf =>
    (match hd : jsOwnGet? defaultObject sourceObjectKey with
     | some (vObj dvf) =>
       jsMerge (vObj svf) (vObj dvf) mods
         (some (mkPath objectNamePath sourceObjectKey))
     | _ =>
       jsMerge (vObj svf) (vObj []) mods
         (some (mkPath objectNamePath sourceObjectKey)))
  | vFunc => vUndef
  | v => v
termination_by 3 * (sizeOf sourceValue + sizeOf defaultObject + 1) + 1
decreasing_by
  all_goals simp_wf
  all_goals
    (try simp only [JSVal.vArr.sizeOf_spec, JSVal.vObj.sizeOf_spec,
      List.nil.sizeOf_spec])
  all_goals have hdp := jsval_sizeOf_pos defaultObject
  all_goals
    first
    | omega
    | (have hle := jsOwnGet?_sizeOf_le hd
       simp only [JSVal.vObj.sizeOf_spec] at hle
       omega)

/-- The second loop of _objectMerge, over the default object's own
enumerable keyValues: a key already present in the source object with a
defined (non-undefined) value is skipped; otherwise the default value
is dispatched by kind exactly as in the first loop, except that a
nested object is always deep-cloned (never merged). -/
def mergeL2 (qs : List (String × JSVal)) (sourceObject : JSVal)
    (mods : Mods) (objectNamePath : Option String)
    (targetObject : List (String × JSVal)) : List (String × JSVal) :=
  match qs with
  | [] => targetObject
  | (defaultObjectKey, defaultValue) :: rest =>
    if (jsOwnEnumKeys sourceObject).contains defaultObjectKey &&
        !(isUndef (jsOwnGetD sourceObject defaultObjectKey)) then
      mergeL2 rest sourceObject mods objectNamePath targetObject
    else
      match defaultValue with
      | vUndef =>
        mergeL2 rest sourceObject mods objectNamePath
          (objSet targetObject defaultObjectKey vUndef)
      | vArr xs =>
        mergeL2 rest sourceObject mods objectNamePath
          (objSet targetObject defaultObjectKey
            (vArr (jsArrayClone xs mods
              (some (mkPath objectNamePath defaultObjectKey)))))
      | vNull =>
        mergeL2 rest sourceObject mods objectNamePath
          (objSet targetObject defaultObjectKey vNull)
      | vDate ms =>
        mergeL2 rest sourceObject mods objectNamePath
          (objSet targetObject defaultObjectKey (vDate ms))
      | vObj dvf =>
        mergeL2 rest sourceObject mods objectNamePath
          (objSet targetObject defaultObjectKey
            (jsMerge (vObj dvf) (vObj []) mods
              (some (mkPath objectNamePath defaultObjectKey))))
      | vFunc =>
        mergeL2 rest sourceObject mods objectNamePath
          (objSet targetObject defaultObjectKey vUndef)
      | v =>
        mergeL2 rest sourceObject mods objectNamePath
          (objSet targetObject defaultObjectKey v)
termination_by 3 * (pairsSize qs + sizeOf sourceObject) + 2
decreasing_by
  all_goals simp_wf
  all_goals
    simp only [pairsSize, List.map_cons, List.sum_cons, JSVal.vArr.sizeOf_spec,
      JSVal.vObj.sizeOf_spec, List.nil.sizeOf_spec]
  all_goals have hsp := jsval_sizeOf_pos sourceObject
  all_goals omega

/-- Model of ObjectUtils._arrayClone: each element is cloned through
_clone under the element name path. -/
def jsArrayClone (sourceArray : List JSVal) (mods : Mods)
    (arrayNamePath : Option String) : List JSVal :=
  match sourceArray with
  | [] => []
  | item :: rest =>
    cloneGo item mods (some (elemPath arrayNamePath)) ::
      jsArrayClone rest mods arrayNamePath
termination_by 3 * (sizeOf sourceArray + 2) + 1
decreasing_by
  all_goals simp_wf
  all_goals (try simp only [List.cons.sizeOf_spec])
  all_goals omega

/-- Model of ObjectUtils._clone. The source calls `Array.isArray()`
with no argument in the array test, which is therefore always false:
an array source falls through to the typeof-object branch and is cloned
as a plain object with index keys (this dead branch is modelled by the
absence of a separate array case). -/
def cloneGo (source : JSVal) (mods : Mods) (namePath : Option String) :
    JSVal :=
  match source with
  | vUndef => vUndef
  | vNull => vNull
  | vDate ms => vDate ms
  | vArr xs => jsMerge (vArr xs) (vObj []) mods namePath
  | vObj fs => jsMerge (vObj fs) (vObj []) mods namePath
  | vFunc => vUndef
  | v => v
termination_by 3 * (sizeOf source + 2) + 1
decreasing_by
  all_goals simp_wf
  all_goals
    simp only [JSVal.vArr.sizeOf_spec, JSVal.vObj.sizeOf_spec,
      List.nil.sizeOf_spec]
  all_goals omega

end

/-- Model of ObjectUtils.objectMerge (public wrapper): _objectMerge with
objectNamePath undefined. -/
def objectMerge (sourceObject defaultObject : JSVal) (mods : Mods) : JSVal :=
  jsMerge sourceObject defaultObject mods none

/-- Model of ObjectUtils._objectClone: _objectMerge against an empty
default object. -/
def objectCloneP (sourceObject : JSVal) (mods : Mods)
    (objectNamePath : Option String) : JSVal :=
  jsMerge sourceObject (vObj []) mods objectNamePath

/-- Model of ObjectUtils.objectClone (public wrapper). -/
def objectClone (sourceObject : JSVal) (mods : Mods) : JSVal :=
  objectCloneP sourceObject mods none

/-- Model of ObjectUtils.arrayClone (public wrapper). -/
def arrayClone (sourceArray : List JSVal) (mods : Mods) : List JSVal :=
  jsArrayClone sourceArray mods none

/-- Model of ObjectUtils.clone (public wrapper): _clone with namePath
undefined. -/
def clone (source : JSVal) (mods : Mods) : JSVal :=
  cloneGo source mods none

end ObjectUtils

/-! ## Well-formedness of plain data and helper lemmas for merge/clone -/

/-- Key lists of JavaScript objects are duplicate-free; this boolean
records that invariant for the embedding (a `vObj` field list with a
repeated key is not the image of any JavaScript object). -/
def keysUniq : List String → Bool
  | [] => true
  | k :: rest => !(rest.contains k) && keysUniq rest

mutual

/-- Plain-data well-formedness: no functions anywhere, and every object
level carries duplicate-free keys (a JavaScript invariant). -/
def plainB : JSVal → Bool
  | vFunc => false
  | vArr xs => plainBL xs
  | vObj fs => keysUniq (fs.map Prod.fst) && plainBP fs
  | _ => true

/-- plainB over array elements. -/
def plainBL : List JSVal → Bool
  | [] => true
  | x :: t => plainB x && plainBL t

/-- plainB over object field values. -/
def plainBP : List (String × JSVal) → Bool
  | [] => true
  | q :: t => plainB q.2 && plainBP t

end

/-- The value assigned by one step of the first merge loop (override
function, else the kind dispatch); proof-side abbreviation. -/
def l1Val (mods : Mods) (p : Option String) (d : JSVal)
    (q : String × JSVal) : JSVal :=
  ((mods (mkPath p q.1)).map (fun f => f q.2)).getD
    (ObjectUtils.l1Clone q.1 q.2 d mods p)

/-- The value assigned by one step of the second merge loop (the kind
dispatch over the default value); proof-side abbreviation. -/
def l2Val (mods : Mods) (p : Option String) (q : String × JSVal) : JSVal :=
  match q.2 with
  | vUndef => vUndef
  | vArr xs => vArr (ObjectUtils.jsArrayClone xs mods (some (mkPath p q.1)))
  | vNull => vNull
  | vDate ms => vDate ms
  | vObj dvf => ObjectUtils.jsMerge (vObj dvf) (vObj []) mods (some (mkPath p q.1))
  | vFunc => vUndef
  | v => v

theorem objSet_lookup_self (fs : List (String × JSVal)) (k : String)
    (v : JSVal) : (objSet fs k v).lookup k = some v := by
  induction fs with
  | nil => simp [objSet, List.lookup]
  | cons q t ih =>
    obtain ⟨k0, v0⟩ := q
    by_cases h : k0 = k
    · subst h
      simp [objSet, List.lookup]
    · simp only [objSet, if_neg h, List.lookup]
      have : (k == k0) = false := by
        simp [beq_eq_false_iff_ne]
        exact fun hk => h hk.symm
      simp [this, ih]

theorem objSet_lookup_ne (fs : List (String × JSVal)) {k k2 : String}
    (v : JSVal) (h : k2 ≠ k) :
    (objSet fs k v).lookup k2 = fs.lookup k2 := by
  induction fs with
  | nil =>
    have hb : (k2 == k) = false := by simp [beq_eq_false_iff_ne, h]
    simp [objSet, List.lookup, hb]
  | cons q t ih =>
    obtain ⟨k0, v0⟩ := q
    by_cases h0 : k0 = k
    · subst h0
      have : (k2 == k0) = false := by simp [beq_eq_false_iff_ne, h]
      simp [objSet, List.lookup, this]
    · simp only [objSet, if_neg h0, List.lookup]
      by_cases h2 : k2 = k0
      · subst h2; simp
      · have : (k2 == k0) = false := by simp [beq_eq_false_iff_ne, h2]
        simp [this, ih]

theorem objSet_append {fs : List (String × JSVal)} {k : String}
    (v : JSVal) (h : k ∉ fs.map Prod.fst) :
    objSet fs k v = fs ++ [(k, v)] := by
  induction fs with
  | nil => simp [objSet]
  | cons q t ih =>
    obtain ⟨k0, v0⟩ := q
    simp only [List.map_cons, List.mem_cons, not_or] at h
    have hne : k0 ≠ k := fun he => h.1 (he ▸ rfl)
    simp only [objSet, if_neg hne, List.cons_append, List.cons.injEq, true_and]
    exact ih h.2

theorem contains_eq_mem (l : List String) (a : String) :
    l.contains a = true ↔ a ∈ l := by
  simp [List.contains, List.elem_iff]

theorem keysUniq_cons {k : String} {rest : List String}
    (h : keysUniq (k :: rest) = true) :
    k ∉ rest ∧ keysUniq rest = true := by
  simp only [keysUniq, Bool.and_eq_true, Bool.not_eq_true'] at h
  refine ⟨fun hm => ?_, h.2⟩
  have := (contains_eq_mem rest k).mpr hm
  rw [h.1] at this
  cases this

theorem keysUniq_of_nodup : ∀ {l : List String}, l.Nodup → keysUniq l = true := by
  intro l h
  induction l with
  | nil => rfl
  | cons k t ih =>
    rw [List.nodup_cons] at h
    have hc : t.contains k = false := by
      cases hct : t.contains k with
      | false => rfl
      | true => exact absurd ((contains_eq_mem t k).mp hct) h.1
    simp [keysUniq, hc, ih h.2]
    exact h.1

theorem keysUniq_middle :
    ∀ (l1 : List String) {a : String} {l2 : List String},
      keysUniq (l1 ++ a :: l2) = true → a ∉ l1 := by
  intro l1
  induction l1 with
  | nil => intro a l2 _ h; cases h
  | cons b t ih =>
    intro a l2 h hm
    obtain ⟨hb, ht⟩ := keysUniq_cons h
    rcases List.mem_cons.mp hm with rfl | hmt
    · exact hb (by simp)
    · exact ih ht hmt

theorem lookup_eq_of_uniq :
    ∀ {fs : List (String × JSVal)} {k : String} {v : JSVal},
      keysUniq (fs.map Prod.fst) = true → (k, v) ∈ fs →
      fs.lookup k = some v := by
  intro fs
  induction fs with
  | nil => intro k v _ h; cases h
  | cons q t ih =>
    intro k v hu hm
    obtain ⟨k0, v0⟩ := q
    obtain ⟨hk0, hut⟩ := keysUniq_cons (by simpa using hu)
    rcases List.mem_cons.mp hm with he | hmt
    · cases he
      simp [List.lookup]
    · have hne : k ≠ k0 := by
        rintro rfl
        exact hk0 (List.mem_map_of_mem Prod.fst hmt)
      have : (k == k0) = false := by simp [beq_eq_false_iff_ne, hne]
      simp only [List.lookup, this]
      exact ih hut hmt

theorem sizeOf_snd_lt_of_mem_pairs {fs : List (String × JSVal)}
    {q : String × JSVal} (h : q ∈ fs) : sizeOf q.2 < sizeOf fs := by
  induction fs with
  | nil => cases h
  | cons q0 t ih =>
    rcases List.mem_cons.mp h with heq | hm
    · subst heq
      obtain ⟨a, b⟩ := q
      simp only [List.cons.sizeOf_spec, Prod.mk.sizeOf_spec]
      omega
    · have := ih hm
      simp only [List.cons.sizeOf_spec]
      omega

theorem plainBL_mem : ∀ {xs : List JSVal} {x : JSVal},
    plainBL xs = true → x ∈ xs → plainB x = true := by
  intro xs
  induction xs with
  | nil => intro x _ h; cases h
  | cons y t ih =>
    intro x hp hm
    simp only [plainBL, Bool.and_eq_true] at hp
    rcases List.mem_cons.mp hm with rfl | hmt
    · exact hp.1
    · exact ih hp.2 hmt

theorem plainBP_mem : ∀ {fs : List (String × JSVal)} {q : String × JSVal},
    plainBP fs = true → q ∈ fs → plainB q.2 = true := by
  intro fs
  induction fs with
  | nil => intro q _ h; cases h
  | cons q0 t ih =>
    intro q hp hm
    simp only [plainBP, Bool.and_eq_true] at hp
    rcases List.mem_cons.mp hm with rfl | hmt
    · exact hp.1
    · exact ih hp.2 hmt

theorem idxKeys_length (n : Nat) : (idxKeys n).length = n := by
  simp [idxKeys]

theorem keysUniq_idxKeys (n : Nat) : keysUniq (idxKeys n) = true :=
  keysUniq_of_nodup ((List.nodup_range n).map natKey_injective)

theorem find?_range_injective (f : Nat → String) (hf : Function.Injective f) :
    ∀ n i, i < n →
      (List.range n).find? (fun j => f j == f i) = some i := by
  intro n
  induction n with
  | zero => intro i h; omega
  | succ m ih =>
    intro i h
    rw [List.range_succ, List.find?_append]
    by_cases hi : i < m
    · rw [ih i hi]
      rfl
    · have hie : i = m := by omega
      subst hie
      have hnone : (List.range i).find? (fun j => f j == f i) = none := by
        rw [List.find?_eq_none]
        intro j hj he
        have hjlt := List.mem_range.mp hj
        have := hf (eq_of_beq he)
        omega
      rw [hnone]
      simp

theorem idxOf?_natKey {n i : Nat} (h : i < n) :
    idxOf? n (natKey i) = some i :=
  find?_range_injective natKey natKey_injective n i h

theorem jsOwnGet?_arr_natKey {xs : List JSVal} {i : Nat}
    (h : i < xs.length) :
    jsOwnGet? (vArr xs) (natKey i) = xs.get? i := by
  simp [jsOwnGet?, idxOf?_natKey h]

theorem map_fst_zip_idxKeys (xs : List JSVal) :
    ((idxKeys xs.length).zip xs).map Prod.fst = idxKeys xs.length :=
  List.map_fst_zip _ _ (by simp [idxKeys_length])

theorem mem_zip_idx {xs : List JSVal} {k : String} {v : JSVal}
    (h : (k, v) ∈ (idxKeys xs.length).zip xs) :
    ∃ i, i < xs.length ∧ k = natKey i ∧ xs.get? i = some v := by
  obtain ⟨⟨i, hlen⟩, hget⟩ := List.mem_iff_get.mp h
  have hzlen : ((idxKeys xs.length).zip xs).length = xs.length := by
    simp [List.length_zip, idxKeys_length]
  have hi : i < xs.length := by omega
  refine ⟨i, hi, ?_, ?_⟩
  · have := congrArg Prod.fst hget
    simp only [List.get_eq_getElem, List.getElem_zip] at this
    rw [← this]
    simp [idxKeys, List.getElem_map, List.getElem_range]
  · have := congrArg Prod.snd hget
    simp only [List.get_eq_getElem, List.getElem_zip] at this
    rw [← this]
    simp [List.getElem?_eq_getElem hi]

theorem jsArrayClone_map (xs : List JSVal) (mods : Mods) (p : Option String) :
    ObjectUtils.jsArrayClone xs mods p
      = xs.map (fun item => ObjectUtils.cloneGo item mods (some (elemPath p))) := by
  induction xs with
  | nil => rw [ObjectUtils.jsArrayClone.eq_def]; rfl
  | cons item rest ih =>
    rw [ObjectUtils.jsArrayClone.eq_def]
    simp only [List.map_cons]
    rw [ih]

theorem mergeL2_nil (s : JSVal) (mods : Mods) (p : Option String)
    (acc : List (String × JSVal)) :
    ObjectUtils.mergeL2 [] s mods p acc = acc := by
  rw [ObjectUtils.mergeL2.eq_def]

theorem mergeL1_map :
    ∀ (ps : List (String × JSVal)) (d : JSVal) (mods : Mods)
      (p : Option String) (acc : List (String × JSVal)),
      keysUniq (acc.map Prod.fst ++ ps.map Prod.fst) = true →
      ObjectUtils.mergeL1 ps d mods p acc
        = acc ++ ps.map (fun q => (q.1, l1Val mods p d q)) := by
  intro ps
  induction ps with
  | nil =>
    intro d mods p acc _
    rw [ObjectUtils.mergeL1.eq_def]
    simp
  | cons q rest ih =>
    intro d mods p acc hu
    obtain ⟨k, v⟩ := q
    have hknot : k ∉ acc.map Prod.fst := by
      apply keysUniq_middle (acc.map Prod.fst)
      simpa using hu
    rw [ObjectUtils.mergeL1.eq_def]
    simp only []
    rw [objSet_append _ hknot]
    rw [ih d mods p (acc ++ [(k, _)]) ?_]
    · simp [l1Val]
    · simp only [List.map_append, List.map_cons, List.map_nil]
      have : acc.map Prod.fst ++ [k] ++ rest.map Prod.fst
          = acc.map Prod.fst ++ k :: rest.map Prod.fst := by
        simp
      rw [this]
      simpa using hu

theorem jsMerge_shape (s d : JSVal) (mods : Mods) (p : Option String) :
    ObjectUtils.jsMerge s d mods p
      = vObj (ObjectUtils.mergeL2 (jsOwnPairs d) s mods p
          (ObjectUtils.mergeL1 (jsOwnPairs s) d mods p [])) := by
  rw [ObjectUtils.jsMerge.eq_def]

theorem objEqLoop_of_forall :
    ∀ (l : List (String × JSVal)) (r : JSVal),
      (∀ q ∈ l, (jsOwnEnumKeys r).contains q.1 = true ∧
        ObjectUtils.elemEq q.2 (jsOwnGetD r q.1) = true) →
      ObjectUtils.objEqLoop l r = true := by
  intro l
  induction l with
  | nil => intro r _; rw [ObjectUtils.objEqLoop.eq_def]
  | cons q rest ih =>
    intro r h
    obtain ⟨k, v⟩ := q
    obtain ⟨hc, he⟩ := h (k, v) (List.mem_cons_self _ _)
    rw [ObjectUtils.objEqLoop.eq_def]
    simp only [hc, if_true, he, Bool.true_and]
    exact ih r (fun q hq => h q (List.mem_cons_of_mem _ hq))

theorem arrEqLoop_map_self (f : JSVal → JSVal) :
    ∀ xs : List JSVal, (∀ x ∈ xs, ObjectUtils.arrElemEq (f x) x = true) →
      ObjectUtils.arrEqLoop (xs.map f) xs = true := by
  intro xs
  induction xs with
  | nil => intro _; simp [ObjectUtils.arrEqLoop.eq_def]
  | cons x rest ih =>
    intro h
    rw [List.map_cons, ObjectUtils.arrEqLoop.eq_def]
    simp only [h x (List.mem_cons_self _ _), Bool.true_and]
    exact ih (fun y hy => h y (List.mem_cons_of_mem _ hy))

theorem isUndef_vObj (fs : List (String × JSVal)) : isUndef (vObj fs) = false := rfl

theorem isNull_vObj (fs : List (String × JSVal)) : isNull (vObj fs) = false := rfl

theorem isJsDate_vObj (fs : List (String × JSVal)) : isJsDate (vObj fs) = false := rfl

theorem isJsArray_vObj (fs : List (String × JSVal)) : isJsArray (vObj fs) = false := rfl

theorem typeofObject_vObj (fs : List (String × JSVal)) : typeofObject (vObj fs) = true := rfl

theorem equals_obj_left (fs : List (String × JSVal)) (r : JSVal)
    (hnu : isUndef r = false) (hnn : isNull r = false)
    (hty : typeofObject r = true) :
    ObjectUtils.equals (vObj fs) r = ObjectUtils.objectEquals (vObj fs) r := by
  simp [ObjectUtils.equals, isUndef_vObj, isNull_vObj, isJsDate_vObj,
    isJsArray_vObj, typeofObject_vObj, hnu, hnn, hty]

theorem elemEq_obj_left (fs : List (String × JSVal)) (r : JSVal)
    (hty : typeofObject r = true) :
    ObjectUtils.elemEq (vObj fs) r = ObjectUtils.objectEquals (vObj fs) r := by
  rw [ObjectUtils.elemEq.eq_def]
  simp [isJsArray_vObj, isNull_vObj, isJsDate_vObj, typeofObject_vObj, hty]

theorem arrElemEq_obj_left (fs : List (String × JSVal)) (r : JSVal)
    (hty : typeofObject r = true) :
    ObjectUtils.arrElemEq (vObj fs) r = ObjectUtils.objectEquals (vObj fs) r := by
  rw [ObjectUtils.arrElemEq.eq_def]
  simp [isUndef_vObj, isJsArray_vObj, isNull_vObj, isJsDate_vObj,
    typeofObject_vObj, hty]

theorem objectEquals_obj_left (l : List (String × JSVal)) (r : JSVal)
    (hnu : isUndef r = false) (hnn : isNull r = false)
    (hnd : isJsDate r = false) (hty : typeofObject r = true) :
    ObjectUtils.objectEquals (vObj l) r
      = (if l.length ≠ (jsOwnEnumKeys r).length then false
         else if l.length = 0 then true
         else ObjectUtils.objEqLoop l r) := by
  rw [ObjectUtils.objectEquals.eq_def]
  simp only [isUndef_vObj, isNull_vObj, isJsDate_vObj, typeofObject_vObj,
    hnu, hnn, hnd, hty, Bool.and_false, Bool.false_and, Bool.and_true,
    Bool.true_and, Bool.or_false, Bool.false_or]
  simp [jsOwnPairs]

theorem arrayEquals_arr (xs ys : List JSVal) :
    ObjectUtils.arrayEquals (vArr xs) (vArr ys)
      = (if xs.length ≠ ys.length then false
         else if xs.length = 0 then true
         else ObjectUtils.arrEqLoop xs ys) := by
  rw [ObjectUtils.arrayEquals.eq_def]
  simp [isUndef, isNull, isJsArray]

theorem elemEq_arr_arr (xs ys : List JSVal) :
    ObjectUtils.elemEq (vArr xs) (vArr ys)
      = ObjectUtils.arrayEquals (vArr xs) (vArr ys) := by
  rw [ObjectUtils.elemEq.eq_def]
  simp [isJsArray]

theorem objectEquals_merge_pairs (x : JSVal) (p : Option String)
    (hty : typeofObject x = true) (hnn : isNull x = false)
    (hnu : isUndef x = false) (hnd : isJsDate x = false)
    (hkeys : jsOwnEnumKeys x = (jsOwnPairs x).map Prod.fst)
    (huniq : keysUniq ((jsOwnPairs x).map Prod.fst) = true)
    (hget : ∀ q ∈ jsOwnPairs x, jsOwnGetD x q.1 = q.2)
    (helem : ∀ q ∈ jsOwnPairs x,
      ObjectUtils.elemEq (l1Val mods0 p (vObj []) q) q.2 = true) :
    ObjectUtils.objectEquals (ObjectUtils.jsMerge x (vObj []) mods0 p) x
      = true := by
  have hshape : ObjectUtils.jsMerge x (vObj []) mods0 p
      = vObj ((jsOwnPairs x).map (fun q => (q.1, l1Val mods0 p (vObj []) q))) := by
    rw [jsMerge_shape]
    rw [show jsOwnPairs (vObj ([] : List (String × JSVal))) = [] from rfl]
    rw [mergeL2_nil]
    rw [mergeL1_map _ _ _ _ _ (by simpa using huniq)]
    simp
  rw [hshape]
  rw [objectEquals_obj_left _ _ hnu hnn hnd hty]
  have hl : ((jsOwnPairs x).map (fun q => (q.1, l1Val mods0 p (vObj []) q))).length
      = (jsOwnEnumKeys x).length := by
    rw [List.length_map, hkeys, List.length_map]
  rw [if_neg (by simp [hl])]
  by_cases h0 :
      ((jsOwnPairs x).map (fun q => (q.1, l1Val mods0 p (vObj []) q))).length = 0
  · rw [if_pos h0]
  · rw [if_neg h0]
    apply objEqLoop_of_forall
    intro kv hkv
    obtain ⟨q, hq, rfl⟩ := List.mem_map.mp hkv
    constructor
    · rw [hkeys, contains_eq_mem]
      simpa using List.mem_map_of_mem Prod.fst hq
    · rw [hget q hq]
      exact helem q hq

mutual

/-- The cloned image of an object or array compares equal to the
original under objectEquals (the loop that both an object clone and an
array clone are compared with, since _clone turns arrays into
index-keyed objects). -/
theorem cloneOE (x : JSVal) (hx : plainB x = true)
    (hk : (∃ fs, x = vObj fs) ∨ (∃ xs, x = vArr xs)) (p : Option String) :
    ObjectUtils.objectEquals (ObjectUtils.jsMerge x (vObj []) mods0 p) x
      = true := by
  rcases hk with ⟨fs, hxeq⟩ | ⟨xs, hxeq⟩ <;> rw [hxeq] at hx ⊢
  · have hx2 : keysUniq (fs.map Prod.fst) = true ∧ plainBP fs = true := by
      simpa [plainB, Bool.and_eq_true] using hx
    refine objectEquals_merge_pairs _ p rfl rfl rfl rfl rfl ?_ ?_ ?_
    · simpa [jsOwnPairs] using hx2.1
    · intro q hq
      simp only [jsOwnPairs] at hq
      have hl : fs.lookup q.1 = some q.2 :=
        lookup_eq_of_uniq hx2.1 (by rw [Prod.mk.eta]; exact hq)
      simp [jsOwnGetD, jsOwnGet?, hl]
    · intro q hq
      simp only [jsOwnPairs] at hq
      have hpv : plainB q.2 = true := plainBP_mem hx2.2 hq
      have hlv : l1Val mods0 p (vObj []) q
          = ObjectUtils.l1Clone q.1 q.2 (vObj []) mods0 p := rfl
      rw [hlv]
      exact cloneElem q.1 q.2 hpv p
  · have hxl : plainBL xs = true := by simpa [plainB] using hx
    refine objectEquals_merge_pairs _ p rfl rfl rfl rfl ?_ ?_ ?_ ?_
    · exact (map_fst_zip_idxKeys xs).symm
    · simp only [jsOwnPairs]
      rw [map_fst_zip_idxKeys]
      exact keysUniq_idxKeys xs.length
    · intro q hq
      simp only [jsOwnPairs] at hq
      obtain ⟨i, hi, hk, hv⟩ := mem_zip_idx (by rw [Prod.mk.eta]; exact hq)
      rw [hk]
      have hv2 : xs[i]? = some q.2 := by
        simpa [List.get?_eq_getElem?] using hv
      simp [jsOwnGetD, jsOwnGet?_arr_natKey hi, List.get?_eq_getElem?, hv2]
    · intro q hq
      simp only [jsOwnPairs] at hq
      have hmem : q.2 ∈ xs :=
        (List.of_mem_zip (by rw [Prod.mk.eta]; exact hq)).2
      have hpv : plainB q.2 = true := plainBL_mem hxl hmem
      have hlv : l1Val mods0 p (vObj []) q
          = ObjectUtils.l1Clone q.1 q.2 (vObj []) mods0 p := rfl
      rw [hlv]
      exact cloneElem q.1 q.2 hpv p
termination_by 3 * sizeOf x
decreasing_by
  all_goals simp_wf
  all_goals try rw [hxeq]
  all_goals
    try simp only [JSVal.vObj.sizeOf_spec, JSVal.vArr.sizeOf_spec]
  · have hq2 : q ∈ fs := by simpa [jsOwnPairs] using hq
    have := sizeOf_snd_lt_of_mem_pairs hq2
    omega
  · have := sizeOf_lt_of_mem_list hmem
    omega

/-- One value of the first merge loop (no matching modification
function, empty default object) compares equal to the original value
under the elemEq dispatch of objectEquals. -/
theorem cloneElem (k : String) (v : JSVal) (hv : plainB v = true)
    (p : Option String) :
    ObjectUtils.elemEq (ObjectUtils.l1Clone k v (vObj []) mods0 p) v
      = true := by
  cases hveq : v with
  | vUndef =>
    simp [ObjectUtils.l1Clone.eq_def, ObjectUtils.elemEq.eq_def, isJsArray,
      isNull, isJsDate, typeofObject, jsStrictEq]
  | vNull =>
    simp [ObjectUtils.l1Clone.eq_def, ObjectUtils.elemEq.eq_def, isJsArray,
      isNull, isJsDate, typeofObject, jsStrictEq]
  | vBool b =>
    simp [ObjectUtils.l1Clone.eq_def, ObjectUtils.elemEq.eq_def, isJsArray,
      isNull, isJsDate, typeofObject, jsStrictEq]
  | vNum n =>
    simp [ObjectUtils.l1Clone.eq_def, ObjectUtils.elemEq.eq_def, isJsArray,
      isNull, isJsDate, typeofObject, jsStrictEq]
  | vStr s =>
    simp [ObjectUtils.l1Clone.eq_def, ObjectUtils.elemEq.eq_def, isJsArray,
      isNull, isJsDate, typeofObject, jsStrictEq]
  | vBigInt n =>
    simp [ObjectUtils.l1Clone.eq_def, ObjectUtils.elemEq.eq_def, isJsArray,
      isNull, isJsDate, typeofObject, jsStrictEq]
  | vDate ms =>
    simp [ObjectUtils.l1Clone.eq_def, ObjectUtils.elemEq.eq_def, isJsArray,
      isNull, isJsDate, typeofObject, ObjectUtils.dateEquals, isUndef]
  | vFunc =>
    rw [hveq] at hv
    simp [plainB] at hv
  | vArr xs =>
    rw [hveq] at hv
    have hxl : plainBL xs = true := by simpa [plainB] using hv
    have hclone : ObjectUtils.l1Clone k (vArr xs) (vObj []) mods0 p
        = vArr (ObjectUtils.jsArrayClone xs mods0 (some (mkPath p k))) := by
      simp [ObjectUtils.l1Clone.eq_def]
    rw [hclone, elemEq_arr_arr, arrayEquals_arr, jsArrayClone_map]
    rw [if_neg (by simp)]
    by_cases h0 : (xs.map (fun item =>
        ObjectUtils.cloneGo item mods0
          (some (elemPath (some (mkPath p k)))))).length = 0
    · rw [if_pos h0]
    · rw [if_neg h0]
      apply arrEqLoop_map_self
      intro a ha
      exact cloneArrElem a (plainBL_mem hxl ha) _
  | vObj svf =>
    rw [hveq] at hv
    have hclone : ObjectUtils.l1Clone k (vObj svf) (vObj []) mods0 p
        = ObjectUtils.jsMerge (vObj svf) (vObj []) mods0
            (some (mkPath p k)) := by
      simp [ObjectUtils.l1Clone.eq_def, jsOwnGet?, List.lookup]
    rw [hclone, jsMerge_shape, elemEq_obj_left _ (vObj svf) rfl,
      ← jsMerge_shape]
    exact cloneOE (vObj svf) hv (Or.inl ⟨svf, rfl⟩) (some (mkPath p k))
termination_by 3 * sizeOf v + 2
decreasing_by
  all_goals simp_wf
  all_goals try rw [hveq]
  all_goals
    try simp only [JSVal.vArr.sizeOf_spec, JSVal.vObj.sizeOf_spec]
  · have := sizeOf_lt_of_mem_list ha
    omega
  · omega

/-- One cloned array element (through _clone, where arrays degrade to
index-keyed objects) compares equal to the original element under the
arrElemEq dispatch of arrayEquals. -/
theorem cloneArrElem (v : JSVal) (hv : plainB v = true) (p : Option String) :
    ObjectUtils.arrElemEq (ObjectUtils.cloneGo v mods0 p) v = true := by
  cases hveq : v with
  | vUndef =>
    simp [ObjectUtils.cloneGo.eq_def, ObjectUtils.arrElemEq.eq_def, isUndef]
  | vNull =>
    simp [ObjectUtils.cloneGo.eq_def, ObjectUtils.arrElemEq.eq_def, isUndef,
      isJsArray, isNull]
  | vBool b =>
    simp [ObjectUtils.cloneGo.eq_def, ObjectUtils.arrElemEq.eq_def, isUndef,
      isJsArray, isNull, isJsDate, typeofObject, jsStrictEq]
  | vNum n =>
    simp [ObjectUtils.cloneGo.eq_def, ObjectUtils.arrElemEq.eq_def, isUndef,
      isJsArray, isNull, isJsDate, typeofObject, jsStrictEq]
  | vStr s =>
    simp [ObjectUtils.cloneGo.eq_def, ObjectUtils.arrElemEq.eq_def, isUndef,
      isJsArray, isNull, isJsDate, typeofObject, jsStrictEq]
  | vBigInt n =>
    simp [ObjectUtils.cloneGo.eq_def, ObjectUtils.arrElemEq.eq_def, isUndef,
      isJsArray, isNull, isJsDate, typeofObject, jsStrictEq]
  | vDate ms =>
    simp [ObjectUtils.cloneGo.eq_def, ObjectUtils.arrElemEq.eq_def, isUndef,
      isJsArray, isNull, isJsDate, ObjectUtils.dateEquals]
  | vFunc =>
    rw [hveq] at hv
    simp [plainB] at hv
  | vArr xs =>
    rw [hveq] at hv
    have hclone : ObjectUtils.cloneGo (vArr xs) mods0 p
        = ObjectUtils.jsMerge (vArr xs) (vObj []) mods0 p := by
      simp [ObjectUtils.cloneGo.eq_def]
    rw [hclone, jsMerge_shape, arrElemEq_obj_left _ (vArr xs) rfl,
      ← jsMerge_shape]
    exact cloneOE (vArr xs) hv (Or.inr ⟨xs, rfl⟩) p
  | vObj fs =>
    rw [hveq] at hv
    have hclone : ObjectUtils.cloneGo (vObj fs) mods0 p
        = ObjectUtils.jsMerge (vObj fs) (vObj []) mods0 p := by
      simp [ObjectUtils.cloneGo.eq_def]
    rw [hclone, jsMerge_shape, arrElemEq_obj_left _ (vObj fs) rfl,
      ← jsMerge_shape]
    exact cloneOE (vObj fs) hv (Or.inl ⟨fs, rfl⟩) p
termination_by 3 * sizeOf v + 2
decreasing_by
  all_goals simp_wf
  all_goals try rw [hveq]
  all_goals
    try simp only [JSVal.vArr.sizeOf_spec, JSVal.vObj.sizeOf_spec]
  all_goals omega

/-- The full clone of a plain-data value compares equal to the original
under ObjectUtils.equals. -/
theorem cloneEquals (x : JSVal) (hx : plainB x = true) (p : Option String) :
    ObjectUtils.equals (ObjectUtils.cloneGo x mods0 p) x = true := by
  cases hxeq : x with
  | vUndef =>
    simp [ObjectUtils.cloneGo.eq_def, ObjectUtils.equals, isUndef]
  | vNull =>
    simp [ObjectUtils.cloneGo.eq_def, ObjectUtils.equals, isUndef, isNull]
  | vBool b =>
    simp [ObjectUtils.cloneGo.eq_def, ObjectUtils.equals, isUndef, isNull,
      isJsDate, isJsArray, typeofObject, jsStrictEq]
  | vNum n =>
    simp [ObjectUtils.cloneGo.eq_def, ObjectUtils.equals, isUndef, isNull,
      isJsDate, isJsArray, typeofObject, jsStrictEq]
  | vStr s =>
    simp [ObjectUtils.cloneGo.eq_def, ObjectUtils.equals, isUndef, isNull,
      isJsDate, isJsArray, typeofObject, jsStrictEq]
  | vBigInt n =>
    simp [ObjectUtils.cloneGo.eq_def, ObjectUtils.equals, isUndef, isNull,
      isJsDate, isJsArray, typeofObject, jsStrictEq]
  | vDate ms =>
    simp [ObjectUtils.cloneGo.eq_def, ObjectUtils.equals, isUndef, isNull,
      isJsDate, ObjectUtils.dateEquals]
  | vFunc =>
    rw [hxeq] at hx
    simp [plainB] at hx
  | vArr xs =>
    rw [hxeq] at hx
    have hclone : ObjectUtils.cloneGo (vArr xs) mods0 p
        = ObjectUtils.jsMerge (vArr xs) (vObj []) mods0 p := by
      simp [ObjectUtils.cloneGo.eq_def]
    rw [hclone, jsMerge_shape, equals_obj_left _ (vArr xs) rfl rfl rfl,
      ← jsMerge_shape]
    exact cloneOE (vArr xs) hx (Or.inr ⟨xs, rfl⟩) p
  | vObj fs =>
    rw [hxeq] at hx
    have hclone : ObjectUtils.cloneGo (vObj fs) mods0 p
        = ObjectUtils.jsMerge (vObj fs) (vObj []) mods0 p := by
      simp [ObjectUtils.cloneGo.eq_def]
    rw [hclone, jsMerge_shape, equals_obj_left _ (vObj fs) rfl rfl rfl,
      ← jsMerge_shape]
    exact cloneOE (vObj fs) hx (Or.inl ⟨fs, rfl⟩) p

end

/-- C2. For every plain-data value x (primitives, null, undefined,
dates, arrays and plain objects with duplicate-free keys; no
functions), equals(clone(x), x) returns true. The clone is built by
fresh container construction throughout (_objectMerge starts from a
fresh target object, _arrayClone from a fresh array, dateClone copies
the timestamp), which is the no-shared-container half of the claim; in
this value-level embedding that half has no separate content beyond the
structural freshness visible in the definitions. Note the top-level
array degradation: _clone turns an array into an index-keyed plain
object (the Array.isArray() call has no argument), yet equals still
accepts the result because its typeof test lets an object be compared
with an array key by key. -/
theorem claim_C2_clone_equals (x : JSVal) (hx : plainB x = true) :
    ObjectUtils.equals (ObjectUtils.clone x mods0) x = true :=
  cloneEquals x hx none

/-- C2 witness: a concrete nested plain-data value (object containing
an array containing a nested object and a nested array, a date, and an
explicitly undefined field) clones to an equal value. -/
theorem claim_C2_clone_equals_witness :
    plainB (vObj [("a", vArr [vNum 1, vObj [("b", vNull)], vArr [vStr "s"]]),
      ("d", vDate 7), ("u", vUndef)]) = true ∧
    ObjectUtils.equals
      (ObjectUtils.clone
        (vObj [("a", vArr [vNum 1, vObj [("b", vNull)], vArr [vStr "s"]]),
          ("d", vDate 7), ("u", vUndef)]) mods0)
      (vObj [("a", vArr [vNum 1, vObj [("b", vNull)], vArr [vStr "s"]]),
        ("d", vDate 7), ("u", vUndef)]) = true := by
  have hp : plainB (vObj [("a", vArr [vNum 1, vObj [("b", vNull)],
      vArr [vStr "s"]]), ("d", vDate 7), ("u", vUndef)]) = true := by
    simp [plainB, plainBL, plainBP, keysUniq]
  exact ⟨hp, claim_C2_clone_equals _ hp⟩

theorem equals_arr_arr (xs ys : List JSVal) :
    ObjectUtils.equals (vArr xs) (vArr ys)
      = ObjectUtils.arrayEquals (vArr xs) (vArr ys) := by
  simp [ObjectUtils.equals, isUndef, isNull, isJsDate, isJsArray]

theorem mergeL2_lookup_notmem :
    ∀ (qs : List (String × JSVal)) (s : JSVal) (mods : Mods)
      (p : Option String) (acc : List (String × JSVal)) {k : String},
      k ∉ qs.map Prod.fst →
      (ObjectUtils.mergeL2 qs s mods p acc).lookup k = acc.lookup k := by
  intro qs
  induction qs with
  | nil => intro s mods p acc k _; rw [mergeL2_nil]
  | cons q rest ih =>
    intro s mods p acc k hk
    obtain ⟨k0, dv⟩ := q
    simp only [List.map_cons, List.mem_cons, not_or] at hk
    rw [ObjectUtils.mergeL2.eq_def]
    simp only []
    by_cases hskip : ((jsOwnEnumKeys s).contains k0 &&
        !(isUndef (jsOwnGetD s k0))) = true
    · rw [if_pos hskip]
      exact ih s mods p acc hk.2
    · rw [if_neg hskip]
      cases dv <;>
        (rw [ih s mods p _ hk.2]; exact objSet_lookup_ne acc _ hk.1)

theorem mergeL2_lookup_skip :
    ∀ (qs : List (String × JSVal)) (s : JSVal) (mods : Mods)
      (p : Option String) (acc : List (String × JSVal)) {k : String},
      (jsOwnEnumKeys s).contains k = true →
      isUndef (jsOwnGetD s k) = false →
      (ObjectUtils.mergeL2 qs s mods p acc).lookup k = acc.lookup k := by
  intro qs
  induction qs with
  | nil => intro s mods p acc k _ _; rw [mergeL2_nil]
  | cons q rest ih =>
    intro s mods p acc k hc hu
    obtain ⟨k0, dv⟩ := q
    rw [ObjectUtils.mergeL2.eq_def]
    simp only []
    by_cases hskip : ((jsOwnEnumKeys s).contains k0 &&
        !(isUndef (jsOwnGetD s k0))) = true
    · rw [if_pos hskip]
      exact ih s mods p acc hc hu
    · rw [if_neg hskip]
      have hne : k ≠ k0 := by
        rintro rfl
        exact hskip (by rw [hc, hu]; rfl)
      cases dv <;>
        (rw [ih s mods p _ hc hu]; exact objSet_lookup_ne acc _ hne)

theorem mergeL2_lookup_assign :
    ∀ (qs : List (String × JSVal)) (s : JSVal) (mods : Mods)
      (p : Option String) (acc : List (String × JSVal)) {k : String}
      {dv : JSVal},
      keysUniq (qs.map Prod.fst) = true →
      (k, dv) ∈ qs →
      ¬((jsOwnEnumKeys s).contains k = true ∧
        isUndef (jsOwnGetD s k) = false) →
      (ObjectUtils.mergeL2 qs s mods p acc).lookup k
        = some (l2Val mods p (k, dv)) := by
  intro qs
  induction qs with
  | nil => intro s mods p acc k dv _ hm _; cases hm
  | cons q rest ih =>
    intro s mods p acc k dv hu hm hns
    obtain ⟨k0, dv0⟩ := q
    obtain ⟨hk0, hurest⟩ := keysUniq_cons (by simpa using hu)
    rw [ObjectUtils.mergeL2.eq_def]
    simp only []
    rcases List.mem_cons.mp hm with he | hmt
    · injection he with hk1 hv1
      subst hk1
      subst hv1
      have hskip : ((jsOwnEnumKeys s).contains k &&
          !(isUndef (jsOwnGetD s k))) = false := by
        cases hct : (jsOwnEnumKeys s).contains k with
        | false => simp [hct]
        | true =>
          cases hut : isUndef (jsOwnGetD s k) with
          | true => simp [hut]
          | false => exact absurd ⟨hct, hut⟩ hns
      rw [if_neg (by intro h; rw [hskip] at h; exact Bool.false_ne_true h)]
      have hnotmem : k ∉ rest.map Prod.fst := hk0
      cases dv <;>
        (rw [mergeL2_lookup_notmem rest s mods p _ hnotmem,
           objSet_lookup_self]
         try rfl)
    · have hne : k ≠ k0 := by
        rintro rfl
        exact hk0 (List.mem_map_of_mem Prod.fst hmt)
      by_cases hskip : ((jsOwnEnumKeys s).contains k0 &&
          !(isUndef (jsOwnGetD s k0))) = true
      · rw [if_pos hskip]
        exact ih s mods p acc hurest hmt hns
      · rw [if_neg hskip]
        cases dv0 <;> exact ih s mods p _ hurest hmt hns

theorem map_fst_pairs (ps : List (String × JSVal))
    (F : String × JSVal → JSVal) :
    (ps.map (fun q => (q.1, F q))).map Prod.fst = ps.map Prod.fst := by
  simp [List.map_map]

theorem lookup_map_pairs {ps : List (String × JSVal)} {k : String}
    {v : JSVal} (F : String × JSVal → JSVal)
    (hu : keysUniq (ps.map Prod.fst) = true) (hm : (k, v) ∈ ps) :
    (ps.map (fun q => (q.1, F q))).lookup k = some (F (k, v)) := by
  apply lookup_eq_of_uniq
  · rw [map_fst_pairs]
    exact hu
  · exact List.mem_map_of_mem _ hm

theorem l1Clone_equals (k : String) (v d : JSVal) (hv : plainB v = true)
    (p : Option String)
    (hnobj : ∀ svf dvf, v = vObj svf → jsOwnGet? d k ≠ some (vObj dvf)) :
    ObjectUtils.equals (ObjectUtils.l1Clone k v d mods0 p) v = true := by
  cases v with
  | vUndef =>
    simp [ObjectUtils.l1Clone.eq_def, ObjectUtils.equals, isUndef]
  | vNull =>
    simp [ObjectUtils.l1Clone.eq_def, ObjectUtils.equals, isUndef, isNull]
  | vBool b =>
    simp [ObjectUtils.l1Clone.eq_def, ObjectUtils.equals, isUndef, isNull,
      isJsDate, isJsArray, typeofObject, jsStrictEq]
  | vNum n =>
    simp [ObjectUtils.l1Clone.eq_def, ObjectUtils.equals, isUndef, isNull,
      isJsDate, isJsArray, typeofObject, jsStrictEq]
  | vStr s =>
    simp [ObjectUtils.l1Clone.eq_def, ObjectUtils.equals, isUndef, isNull,
      isJsDate, isJsArray, typeofObject, jsStrictEq]
  | vBigInt n =>
    simp [ObjectUtils.l1Clone.eq_def, ObjectUtils.equals, isUndef, isNull,
      isJsDate, isJsArray, typeofObject, jsStrictEq]
  | vDate ms =>
    simp [ObjectUtils.l1Clone.eq_def, ObjectUtils.equals, isUndef, isNull,
      isJsDate, ObjectUtils.dateEquals]
  | vFunc => simp [plainB] at hv
  | vArr xs =>
    have hxl : plainBL xs = true := by simpa [plainB] using hv
    have hclone : ObjectUtils.l1Clone k (vArr xs) d mods0 p
        = vArr (ObjectUtils.jsArrayClone xs mods0 (some (mkPath p k))) := by
      simp [ObjectUtils.l1Clone.eq_def]
    rw [hclone, equals_arr_arr, arrayEquals_arr, jsArrayClone_map]
    rw [if_neg (by simp)]
    by_cases h0 : (xs.map (fun item =>
        ObjectUtils.cloneGo item mods0
          (some (elemPath (some (mkPath p k)))))).length = 0
    · rw [if_pos h0]
    · rw [if_neg h0]
      apply arrEqLoop_map_self
      intro a ha
      exact cloneArrElem a (plainBL_mem hxl ha) _
  | vObj svf =>
    have hclone : ObjectUtils.l1Clone k (vObj svf) d mods0 p
        = ObjectUtils.jsMerge (vObj svf) (vObj []) mods0
            (some (mkPath p k)) := by
      rw [ObjectUtils.l1Clone.eq_def]
      cases hd : jsOwnGet? d k with
      | none => rfl
      | some w =>
        cases w with
        | vObj dvf => exact absurd hd (by simpa using hnobj svf dvf rfl)
        | vUndef => rfl
        | vNull => rfl
        | vBool b => rfl
        | vNum n => rfl
        | vStr s => rfl
        | vBigInt n => rfl
        | vDate ms => rfl
        | vArr ys => rfl
        | vFunc => rfl
    rw [hclone, jsMerge_shape, equals_obj_left _ (vObj svf) rfl rfl rfl,
      ← jsMerge_shape]
    exact cloneOE (vObj svf) hv (Or.inl ⟨svf, rfl⟩) (some (mkPath p k))

theorem l2Val_equals (q : String × JSVal) (hv : plainB q.2 = true)
    (p : Option String) :
    ObjectUtils.equals (l2Val mods0 p q) q.2 = true := by
  obtain ⟨k, v⟩ := q
  cases v with
  | vUndef => simp [l2Val, ObjectUtils.equals, isUndef]
  | vNull => simp [l2Val, ObjectUtils.equals, isUndef, isNull]
  | vBool b =>
    simp [l2Val, ObjectUtils.equals, isUndef, isNull, isJsDate, isJsArray,
      typeofObject, jsStrictEq]
  | vNum n =>
    simp [l2Val, ObjectUtils.equals, isUndef, isNull, isJsDate, isJsArray,
      typeofObject, jsStrictEq]
  | vStr s =>
    simp [l2Val, ObjectUtils.equals, isUndef, isNull, isJsDate, isJsArray,
      typeofObject, jsStrictEq]
  | vBigInt n =>
    simp [l2Val, ObjectUtils.equals, isUndef, isNull, isJsDate, isJsArray,
      typeofObject, jsStrictEq]
  | vDate ms =>
    simp [l2Val, ObjectUtils.equals, isUndef, isNull, isJsDate,
      ObjectUtils.dateEquals]
  | vFunc => simp [plainB] at hv
  | vArr xs =>
    have hxl : plainBL xs = true := by simpa [plainB] using hv
    have hl2 : l2Val mods0 p (k, vArr xs)
        = vArr (ObjectUtils.jsArrayClone xs mods0 (some (mkPath p k))) := rfl
    rw [hl2, equals_arr_arr, arrayEquals_arr, jsArrayClone_map]
    rw [if_neg (by simp)]
    by_cases h0 : (xs.map (fun item =>
        ObjectUtils.cloneGo item mods0
          (some (elemPath (some (mkPath p k)))))).length = 0
    · rw [if_pos h0]
    · rw [if_neg h0]
      apply arrEqLoop_map_self
      intro a ha
      exact cloneArrElem a (plainBL_mem hxl ha) _
  | vObj dvf =>
    have hl2 : l2Val mods0 p (k, vObj dvf)
        = ObjectUtils.jsMerge (vObj dvf) (vObj []) mods0
            (some (mkPath p k)) := rfl
    rw [hl2, jsMerge_shape, equals_obj_left _ (vObj dvf) rfl rfl rfl,
      ← jsMerge_shape]
    exact cloneOE (vObj dvf) hv (Or.inl ⟨dvf, rfl⟩) (some (mkPath p k))

/-- C1 (amended). For plain-data objects source and default with
duplicate-free keys: (i) a key of the source with a defined value and a
matching modification function appears in the merge with the function
applied to the source value; (ii) but when both source and default hold
plain objects under the same key the result holds their recursive
merge, not the source value (the original claim fails here, see the
counterexample); (iii) for every other defined source value the result
is deep-equal to the source value (arrays and nested objects are
cloned, so equality is up to equals, not identity); (iv) a default key
that is absent from the source, or present with value undefined,
appears with a deep clone of the default value (deep-equal to it). -/
theorem claim_C1_amended (sfs dfs : List (String × JSVal))
    (hs : plainB (vObj sfs) = true) (hd : plainB (vObj dfs) = true) :
    (∀ (mods : Mods) (g : JSVal → JSVal) (k : String) (v : JSVal),
      (k, v) ∈ sfs → isUndef v = false → mods k = some g →
      jsOwnGet? (ObjectUtils.objectMerge (vObj sfs) (vObj dfs) mods) k
        = some (g v)) ∧
    (∀ (k : String) (svf dvf : List (String × JSVal)),
      (k, vObj svf) ∈ sfs → (k, vObj dvf) ∈ dfs →
      jsOwnGet? (ObjectUtils.objectMerge (vObj sfs) (vObj dfs) mods0) k
        = some (ObjectUtils.jsMerge (vObj svf) (vObj dvf) mods0 (some k))) ∧
    (∀ (k : String) (v : JSVal),
      (k, v) ∈ sfs → isUndef v = false →
      (∀ svf dvf, v = vObj svf → dfs.lookup k ≠ some (vObj dvf)) →
      ObjectUtils.equals
        (jsOwnGetD (ObjectUtils.objectMerge (vObj sfs) (vObj dfs) mods0) k) v
        = true) ∧
    (∀ (k : String) (dv : JSVal),
      (k, dv) ∈ dfs →
      (k ∉ sfs.map Prod.fst ∨ sfs.lookup k = some vUndef) →
      ObjectUtils.equals
        (jsOwnGetD (ObjectUtils.objectMerge (vObj sfs) (vObj dfs) mods0) k)
        dv = true) := by
  have hsu : keysUniq (sfs.map Prod.fst) = true ∧ plainBP sfs = true := by
    simpa [plainB, Bool.and_eq_true] using hs
  have hdu : keysUniq (dfs.map Prod.fst) = true ∧ plainBP dfs = true := by
    simpa [plainB, Bool.and_eq_true] using hd
  have hom : ∀ M : Mods, ObjectUtils.objectMerge (vObj sfs) (vObj dfs) M
      = vObj (ObjectUtils.mergeL2 dfs (vObj sfs) M none
          (ObjectUtils.mergeL1 sfs (vObj dfs) M none [])) := by
    intro M
    simp only [ObjectUtils.objectMerge]
    rw [jsMerge_shape]
    simp [jsOwnPairs]
  have hcontOf : ∀ {k : String} {v : JSVal}, (k, v) ∈ sfs →
      (jsOwnEnumKeys (vObj sfs)).contains k = true := by
    intro k v hm
    rw [contains_eq_mem]
    simpa [jsOwnEnumKeys] using List.mem_map_of_mem Prod.fst hm
  have hgdOf : ∀ {k : String} {v : JSVal}, (k, v) ∈ sfs →
      jsOwnGetD (vObj sfs) k = v := by
    intro k v hm
    simp [jsOwnGetD, jsOwnGet?, lookup_eq_of_uniq hsu.1 hm]
  refine ⟨?_, ?_, ?_, ?_⟩
  · intro M g k v hm hvu hMk
    rw [hom M]
    simp only [jsOwnGet?]
    rw [mergeL2_lookup_skip dfs (vObj sfs) M none _ (hcontOf hm)
      (by rw [hgdOf hm]; exact hvu)]
    rw [mergeL1_map sfs (vObj dfs) M none [] (by simpa using hsu.1)]
    simp only [List.nil_append]
    rw [lookup_map_pairs _ hsu.1 hm]
    simp [l1Val, mkPath, hMk]
  · intro k svf dvf hms hmd
    rw [hom mods0]
    simp only [jsOwnGet?]
    rw [mergeL2_lookup_skip dfs (vObj sfs) mods0 none _ (hcontOf hms)
      (by rw [hgdOf hms]; rfl)]
    rw [mergeL1_map sfs (vObj dfs) mods0 none [] (by simpa using hsu.1)]
    simp only [List.nil_append]
    rw [lookup_map_pairs _ hsu.1 hms]
    have hlk : dfs.lookup k = some (vObj dvf) := lookup_eq_of_uniq hdu.1 hmd
    have hl1 : l1Val mods0 none (vObj dfs) (k, vObj svf)
        = ObjectUtils.jsMerge (vObj svf) (vObj dvf) mods0 (some k) := by
      show ObjectUtils.l1Clone k (vObj svf) (vObj dfs) mods0 none
        = ObjectUtils.jsMerge (vObj svf) (vObj dvf) mods0 (some k)
      rw [ObjectUtils.l1Clone.eq_def]
      simp only [jsOwnGet?, mkPath]
      split
      · rename_i heq
        rw [hlk] at heq
        injection heq with h1
        injection h1 with h2
        rw [h2]
      · rename_i hne
        exact absurd hlk (hne dvf)
    rw [hl1]
  · intro k v hm hvu hnobj
    rw [hom mods0]
    simp only [jsOwnGetD, jsOwnGet?]
    rw [mergeL2_lookup_skip dfs (vObj sfs) mods0 none _ (hcontOf hm)
      (by rw [hgdOf hm]; exact hvu)]
    rw [mergeL1_map sfs (vObj dfs) mods0 none [] (by simpa using hsu.1)]
    simp only [List.nil_append]
    rw [lookup_map_pairs _ hsu.1 hm]
    simp only [Option.getD_some]
    show ObjectUtils.equals
      (ObjectUtils.l1Clone k v (vObj dfs) mods0 none) v = true
    exact l1Clone_equals k v (vObj dfs) (plainBP_mem hsu.2 hm) none
      (fun svf dvf hsv => by simpa [jsOwnGet?] using hnobj svf dvf hsv)
  · intro k dv hmd hcase
    rw [hom mods0]
    simp only [jsOwnGetD, jsOwnGet?]
    rw [mergeL2_lookup_assign dfs (vObj sfs) mods0 none _ hdu.1 hmd ?_]
    · simp only [Option.getD_some]
      exact l2Val_equals (k, dv) (plainBP_mem hdu.2 hmd) none
    · rintro ⟨hc, hu⟩
      rcases hcase with hnot | hund
      · rw [contains_eq_mem] at hc
        simp only [jsOwnEnumKeys] at hc
        exact hnot hc
      · rw [show jsOwnGetD (vObj sfs) k = vUndef from by
          simp [jsOwnGetD, jsOwnGet?, hund]] at hu
        simp [isUndef] at hu

/-- C1 counterexample: for source a maps-to x1 and default a maps-to
y2, the merge stores the recursive merge of the two nested objects
under a, so the source key a does not keep its own value (not even up
to deep equality): the claim that every defined source key appears with
its source value fails. -/
theorem claim_C1_counterexample :
    ObjectUtils.objectMerge (vObj [("a", vObj [("x", vNum 1)])])
      (vObj [("a", vObj [("y", vNum 2)])]) mods0
      = vObj [("a", vObj [("x", vNum 1), ("y", vNum 2)])] ∧
    ObjectUtils.equals
      (jsOwnGetD
        (ObjectUtils.objectMerge (vObj [("a", vObj [("x", vNum 1)])])
          (vObj [("a", vObj [("y", vNum 2)])]) mods0) "a")
      (vObj [("x", vNum 1)]) = false := by
  have h1 : ObjectUtils.objectMerge (vObj [("a", vObj [("x", vNum 1)])])
      (vObj [("a", vObj [("y", vNum 2)])]) mods0
      = vObj [("a", vObj [("x", vNum 1), ("y", vNum 2)])] := by
    simp [ObjectUtils.objectMerge, ObjectUtils.jsMerge.eq_def,
      ObjectUtils.mergeL1.eq_def, ObjectUtils.mergeL2.eq_def,
      ObjectUtils.l1Clone.eq_def, jsOwnPairs, jsOwnEnumKeys, jsOwnGetD,
      jsOwnGet?, List.lookup, mods0, mkPath, objSet, isUndef]
  refine ⟨h1, ?_⟩
  rw [h1]
  rw [show jsOwnGetD (vObj [("a", vObj [("x", vNum 1), ("y", vNum 2)])]) "a"
      = vObj [("x", vNum 1), ("y", vNum 2)] from by
    simp [jsOwnGetD, jsOwnGet?, List.lookup]]
  simp [ObjectUtils.equals, ObjectUtils.objectEquals.eq_def, isUndef, isNull,
    isJsDate, isJsArray, typeofObject, jsOwnPairs, jsOwnEnumKeys]

/-- C1 witness: the four amended clauses at a concrete source and
default pair — an override function applied to a source value, the
deep merge of the nested objects under the shared key, a primitive
source value surviving unchanged, and a default-only key appearing
with its (cloned) default value. -/
theorem claim_C1_amended_witness :
    jsOwnGet?
      (ObjectUtils.objectMerge
        (vObj [("a", vObj [("x", vNum 1)]), ("b", vNum 5), ("u", vUndef)])
        (vObj [("a", vObj [("y", vNum 2)]), ("c", vStr "z"), ("u", vNum 9)])
        (fun s => if s = "b" then some (fun _ => vNum 42) else none)) "b"
      = some (vNum 42) ∧
    jsOwnGet?
      (ObjectUtils.objectMerge
        (vObj [("a", vObj [("x", vNum 1)]), ("b", vNum 5), ("u", vUndef)])
        (vObj [("a", vObj [("y", vNum 2)]), ("c", vStr "z"), ("u", vNum 9)])
        mods0) "a"
      = some (ObjectUtils.jsMerge (vObj [("x", vNum 1)])
          (vObj [("y", vNum 2)]) mods0 (some "a")) ∧
    ObjectUtils.equals
      (jsOwnGetD
        (ObjectUtils.objectMerge
          (vObj [("a", vObj [("x", vNum 1)]), ("b", vNum 5), ("u", vUndef)])
          (vObj [("a", vObj [("y", vNum 2)]), ("c", vStr "z"), ("u", vNum 9)])
          mods0) "b") (vNum 5) = true ∧
    ObjectUtils.equals
      (jsOwnGetD
        (ObjectUtils.objectMerge
          (vObj [("a", vObj [("x", vNum 1)]), ("b", vNum 5), ("u", vUndef)])
          (vObj [("a", vObj [("y", vNum 2)]), ("c", vStr "z"), ("u", vNum 9)])
          mods0) "c") (vStr "z") = true := by
  have h := claim_C1_amended
    [("a", vObj [("x", vNum 1)]), ("b", vNum 5), ("u", vUndef)]
    [("a", vObj [("y", vNum 2)]), ("c", vStr "z"), ("u", vNum 9)]
    (by simp [plainB, plainBP, plainBL, keysUniq, List.contains])
    (by simp [plainB, plainBP, plainBL, keysUniq, List.contains])
  refine ⟨?_, ?_, ?_, ?_⟩
  · exact h.1 (fun s => if s = "b" then some (fun _ => vNum 42) else none)
      (fun _ => vNum 42) "b" (vNum 5) (by simp) rfl (by simp)
  · exact h.2.1 "a" [("x", vNum 1)] [("y", vNum 2)] (by simp) (by simp)
  · exact h.2.2.1 "b" (vNum 5) (by simp) rfl
      (fun svf dvf hsv => by simp at hsv)
  · exact h.2.2.2 "c" (vStr "z") (by simp) (Or.inl (by decide))

/-! ## Positional codec (objectutils.js: compress, compressArray,
decompress, decompressArray; objectcompressor.js holds a byte-identical
copy of the same four functions) -/

/-- A compression template entry: a plain key string, or a descriptor
object with structure name/type/keys, where type equal to the string
array selects the array form (`isArr`). -/
inductive TEntry where
  | bare (key : String) : TEntry
  | nested (name : String) (isArr : Bool) (keys : List TEntry) : TEntry

/-- The property key actually used by `obj[key] = undefined` in the
beyond-data branch of decompress: a string key is used as is, while a
descriptor object is coerced by ToPropertyKey/ToString to the string
"[object Object]". -/
def tentryAssignKey : TEntry → String
  | .bare key => key
  | .nested _ _ _ => "[object Object]"

/-- The null-to-undefined conversion decompress applies to plain
values. -/
def nullToUndef (v : JSVal) : JSVal := if isNull v then vUndef else v

/-- The loop guard `idx >= data.length` of decompress: reading length
throws on null/undefined; a non-numeric length (undefined on plain
objects without such a key) makes the comparison false (NaN
comparison). -/
def jsLenGE (data : JSVal) (idx : Nat) : Except Unit Bool :=
  match data with
  | vUndef => .error ()
  | vNull => .error ()
  | d => .ok (match jsRawGet d "length" with
      | vNum l => decide (l ≤ (idx : Int))
      | _ => false)

namespace ObjectUtils

mutual

/-- Model of ObjectUtils.compress: one data element per template entry;
a bare key pushes the property value as read (prototype chain
included), a descriptor pushes undefined for an undefined value and
otherwise the recursively compressed object (or array of objects). The
property reads throw on a null or undefined base. -/
def compressGo (obj : JSVal) (t : List TEntry) : Except Unit (List JSVal) :=
  match t with
  | [] => .ok []
  | .bare key :: rest => do
    let value ← jsRawGetE obj key
    let ds ← compressGo obj rest
    .ok (value :: ds)
  | .nested name isArr childKeys :: rest => do
    let value ← jsRawGetE obj name
    if isUndef value then
      let ds ← compressGo obj rest
      .ok (vUndef :: ds)
    else if isArr then do
      let rows ← compressArr value childKeys
      let ds ← compressGo obj rest
      .ok (vArr rows :: ds)
    else do
      let row ← compressGo value childKeys
      let ds ← compressGo obj rest
      .ok (vArr row :: ds)
termination_by (sizeOf t, sizeOf obj, 0)

/-- Model of ObjectUtils.compressArray: for-of over the value, which
throws on a non-iterable; the codec only ever feeds arrays here
(string iteration is out of the embedded scope), so a non-array is
modelled as the thrown error. -/
def compressArr (objs : JSVal) (t : List TEntry) : Except Unit (List JSVal) :=
  match objs with
  | vArr items => compressArrItems items t
  | _ => .error ()
termination_by (sizeOf t, sizeOf objs, 1)

/-- The element loop of compressArray. -/
def compressArrItems (items : List JSVal) (t : List TEntry) :
    Except Unit (List JSVal) :=
  match items with
  | [] => .ok []
  | item :: rest => do
    let row ← compressGo item t
    let rows ← compressArrItems rest t
    .ok (vArr row :: rows)
termination_by (sizeOf t, sizeOf items, 2)

end

mutual

/-- Model of ObjectUtils.decompress. Each template entry at index idx
beyond the data length assigns undefined under `tentryAssignKey` (the
descriptor-as-key coercion); within the data, a bare key stores the
element with null converted to undefined, and a descriptor stores
undefined for a null/undefined element and otherwise the recursively
decompressed object (or array of objects). -/
def decompGo (data : JSVal) (t : List TEntry) (idx : Nat)
    (obj : List (String × JSVal)) : Except Unit (List (String × JSVal)) :=
  match t with
  | [] => .ok obj
  | e :: rest => do
    let beyond ← jsLenGE data idx
    if beyond then
      decompGo data rest (idx + 1) (objSet obj (tentryAssignKey e) vUndef)
    else
      match e with
      | .bare key =>
        decompGo data rest (idx + 1)
          (objSet obj key (nullToUndef (jsRawGet data (natKey idx))))
      | .nested name isArr childKeys =>
        let value := jsRawGet data (natKey idx)
        if isUndef value || isNull value then
          decompGo data rest (idx + 1) (objSet obj name vUndef)
        else if isArr then do
          let items ← decompArr value childKeys
          decompGo data rest (idx + 1) (objSet obj name (vArr items))
        else do
          let sub ← decompGo value childKeys 0 []
          decompGo data rest (idx + 1) (objSet obj name (vObj sub))
termination_by (sizeOf t, sizeOf data, 0)

/-- Model of ObjectUtils.decompressArray (for-of over the datas, which
throws on a non-iterable; see compressArr). -/
def decompArr (datas : JSVal) (t : List TEntry) : Except Unit (List JSVal) :=
  match datas with
  | vArr rows => decompArrRows rows t
  | _ => .error ()
termination_by (sizeOf t, sizeOf datas, 1)

/-- The row loop of decompressArray. -/
def decompArrRows (rows : List JSVal) (t : List TEntry) :
    Except Unit (List JSVal) :=
  match rows with
  | [] => .ok []
  | row :: rest => do
    let o ← decompGo row t 0 []
    let os ← decompArrRows rest t
    .ok (vObj o :: os)
termination_by (sizeOf t, sizeOf rows, 2)

end

/-- Model of ObjectUtils.compress (public entry). -/
def compress (obj : JSVal) (template : List TEntry) :
    Except Unit (List JSVal) :=
  compressGo obj template

/-- Model of ObjectUtils.decompress (public entry: fresh target object,
index from zero). -/
def decompress (data : JSVal) (template : List TEntry) :
    Except Unit (List (String × JSVal)) :=
  decompGo data template 0 []

end ObjectUtils

namespace ObjectCompressor

/-- ObjectCompressor.compress (objectcompressor.js) is a byte-identical
copy of ObjectUtils.compress. -/
def compress (obj : JSVal) (template : List TEntry) :
    Except Unit (List JSVal) :=
  ObjectUtils.compress obj template

/-- ObjectCompressor.decompress (objectcompressor.js) is a
byte-identical copy of ObjectUtils.decompress. -/
def decompress (data : JSVal) (template : List TEntry) :
    Except Unit (List (String × JSVal)) :=
  ObjectUtils.decompress data template

end ObjectCompressor

theorem idxOf?_length (n : Nat) : idxOf? n "length" = none := by
  rw [idxOf?, List.find?_eq_none]
  intro j _ h
  exact natKey_ne_length j (eq_of_beq h)

theorem jsRawGet_arr_length (d : List JSVal) :
    jsRawGet (vArr d) "length" = vNum d.length := by
  rw [jsRawGet]
  rw [show jsOwnGet? (vArr d) "length" = none from by
    simp [jsOwnGet?, idxOf?_length]]
  simp [jsProtoGet]

theorem jsLenGE_arr (d : List JSVal) (idx : Nat) :
    jsLenGE (vArr d) idx = .ok (decide ((d.length : Int) ≤ (idx : Int))) := by
  rw [jsLenGE]
  · rw [jsRawGet_arr_length]
  · exact fun h => JSVal.noConfusion h
  · exact fun h => JSVal.noConfusion h

theorem jsLenGE_arr_lt {d : List JSVal} {idx : Nat} (h : idx < d.length) :
    jsLenGE (vArr d) idx = .ok false := by
  rw [jsLenGE_arr]
  congr 1
  simp only [decide_eq_false_iff_not, not_le]
  exact_mod_cast h

theorem jsLenGE_arr_ge {d : List JSVal} {idx : Nat} (h : d.length ≤ idx) :
    jsLenGE (vArr d) idx = .ok true := by
  rw [jsLenGE_arr]
  congr 1
  simp only [decide_eq_true_eq]
  exact_mod_cast h

theorem jsRawGet_arr_idx {xs : List JSVal} {i : Nat} {v : JSVal}
    (h : xs[i]? = some v) : jsRawGet (vArr xs) (natKey i) = v := by
  have hi : i < xs.length := by
    by_contra hge
    rw [List.getElem?_eq_none (by omega)] at h
    cases h
  rw [jsRawGet]
  rw [jsOwnGet?_arr_natKey hi]
  rw [List.get?_eq_getElem?, h]

theorem getElem?_append_head (pre : List JSVal) (v : JSVal)
    (ds : List JSVal) : (pre ++ v :: ds)[pre.length]? = some v := by
  rw [List.getElem?_append_right (le_refl _)]
  simp

/-- Every template entry at an index at or beyond the data length
assigns undefined under the coerced assignment key. -/
theorem decompGo_beyond :
    ∀ (t : List TEntry) (d : List JSVal) (idx : Nat)
      (obj : List (String × JSVal)), d.length ≤ idx →
      ObjectUtils.decompGo (vArr d) t idx obj
        = .ok (t.foldl (fun a e => objSet a (tentryAssignKey e) vUndef) obj) := by
  intro t
  induction t with
  | nil => intro d idx obj _; rw [ObjectUtils.decompGo.eq_def]; rfl
  | cons e rest ih =>
    intro d idx obj h
    rw [ObjectUtils.decompGo.eq_def]
    cases e <;>
      (simp only [jsLenGE_arr_ge h, Except.bind, bind, if_true, List.foldl_cons]
       exact ih d (idx + 1) _ (by omega))

/-- Decompressing against an extended template processes the extension
after the original entries, with the index continuing past them. -/
theorem decompGo_append :
    ∀ (t1 t2 : List TEntry) (d : List JSVal) (idx : Nat)
      (obj : List (String × JSVal)),
      ObjectUtils.decompGo (vArr d) (t1 ++ t2) idx obj
        = (ObjectUtils.decompGo (vArr d) t1 idx obj).bind
            (fun o => ObjectUtils.decompGo (vArr d) t2 (idx + t1.length) o) := by
  intro t1
  induction t1 with
  | nil =>
    intro t2 d idx obj
    rw [show ObjectUtils.decompGo (vArr d) [] idx obj = .ok obj from by
      rw [ObjectUtils.decompGo.eq_def]]
    simp only [List.nil_append, List.length_nil, Nat.add_zero, Except.bind]
  | cons e rest ih =>
    intro t2 d idx obj
    simp only [List.cons_append, List.length_cons,
      show rest.length + 1 = 1 + rest.length from Nat.add_comm _ _,
      ← Nat.add_assoc]
    by_cases hbl : d.length ≤ idx
    · rw [decompGo_beyond _ d idx obj hbl, decompGo_beyond _ d idx obj hbl]
      simp only [Except.bind]
      rw [decompGo_beyond t2 d _ _ (by omega)]
      simp only [List.foldl_cons, List.foldl_append]
    · have hlt : idx < d.length := by omega
      rw [ObjectUtils.decompGo.eq_def]
      conv_rhs => rw [ObjectUtils.decompGo.eq_def]
      cases e with
      | bare k =>
        simp only [jsLenGE_arr_lt hlt, Except.bind, bind, Bool.false_eq_true,
          if_false]
        rw [ih]
        simp only [Except.bind]
      | nested name isArr keys =>
        simp only [jsLenGE_arr_lt hlt, Except.bind, bind, Bool.false_eq_true,
          if_false]
        by_cases hguard : (isUndef (jsRawGet (vArr d) (natKey idx)) ||
            isNull (jsRawGet (vArr d) (natKey idx))) = true
        · simp only [hguard, eq_self_iff_true, if_true]
          rw [ih]
          simp only [Except.bind]
        · simp only [hguard, Bool.false_eq_true, if_false]
          by_cases harr : isArr = true
          · simp only [harr, eq_self_iff_true, if_true, Bool.false_eq_true,
              if_false]
            cases hda : ObjectUtils.decompArr
                (jsRawGet (vArr d) (natKey idx)) keys with
            | error err => simp [hda, Except.bind]
            | ok items =>
              simp only [hda, Except.bind]
              rw [ih]
              simp only [Except.bind]
          · simp only [harr, Bool.false_eq_true, if_false]
            cases hdg : ObjectUtils.decompGo
                (jsRawGet (vArr d) (natKey idx)) keys 0 [] with
            | error err => simp [hdg, Except.bind]
            | ok sub =>
              simp only [hdg, Except.bind]
              rw [ih]
              simp only [Except.bind]

/-- C4 (amended). Decompressing an old data array against a template
extended with trailing entries decodes the original prefix exactly as
before, and every extension entry is assigned undefined — but under
`tentryAssignKey`: a bare string entry gets its own field, while a
descriptor entry is coerced to the single field name
"[object Object]" instead of its name (the original claim fails there,
see the counterexample). ObjectCompressor.decompress
(objectcompressor.js) is the same byte-identical function. -/
theorem claim_C4_amended :
    (∀ (d : List JSVal) (t1 t2 : List TEntry) (o : List (String × JSVal)),
      d.length ≤ t1.length →
      ObjectUtils.decompress (vArr d) t1 = .ok o →
      ObjectUtils.decompress (vArr d) (t1 ++ t2)
        = .ok (t2.foldl (fun a e => objSet a (tentryAssignKey e) vUndef) o)) ∧
    (∀ s, tentryAssignKey (TEntry.bare s) = s) ∧
    (∀ n b ks, tentryAssignKey (TEntry.nested n b ks) = "[object Object]") ∧
    (∀ (d : JSVal) (t : List TEntry),
      ObjectCompressor.decompress d t = ObjectUtils.decompress d t) := by
  refine ⟨?_, fun _ => rfl, fun _ _ _ => rfl, fun _ _ => rfl⟩
  intro d t1 t2 o hlen hok
  simp only [ObjectUtils.decompress] at hok ⊢
  rw [decompGo_append t1 t2 d 0 []]
  rw [hok]
  simp only [Except.bind, Nat.zero_add]
  exact decompGo_beyond t2 d t1.length o hlen

/-- C4 counterexample: decompressing a one-element array against a
template whose trailing entries are a bare key b and a descriptor named
c produces an undefined field b as claimed, but no field c at all — the
descriptor entry creates the field "[object Object]" instead. -/
theorem claim_C4_counterexample :
    ObjectUtils.decompress (vArr [vNum 1])
      [TEntry.bare "a", TEntry.bare "b", TEntry.nested "c" false []]
      = .ok [("a", vNum 1), ("b", vUndef), ("[object Object]", vUndef)] ∧
    ([("a", vNum 1), ("b", vUndef),
      ("[object Object]", vUndef)] : List (String × JSVal)).lookup "c"
      = none := by
  constructor
  · simp [ObjectUtils.decompress, ObjectUtils.decompGo.eq_def, jsLenGE,
      jsRawGet, jsOwnGet?, jsProtoGet, idxOf?, natKey, natKeyAux, digitChar10,
      List.range_succ, nullToUndef, isNull, isUndef, tentryAssignKey, objSet,
      Except.bind, bind, arrayProtoNames, objectProtoNames]
  · simp [List.lookup]

/-- C4 witness: the amended clauses applied to a concrete short data
array and extended template. -/
theorem claim_C4_amended_witness :
    ([vNum 7] : List JSVal).length ≤ ([TEntry.bare "a"] : List TEntry).length ∧
    ObjectUtils.decompress (vArr [vNum 7]) [TEntry.bare "a"]
      = .ok [("a", vNum 7)] ∧
    ObjectUtils.decompress (vArr [vNum 7])
      ([TEntry.bare "a"] ++ [TEntry.bare "b", TEntry.nested "c" true []])
      = .ok ([TEntry.bare "b", TEntry.nested "c" true []].foldl
          (fun a e => objSet a (tentryAssignKey e) vUndef) [("a", vNum 7)]) ∧
    tentryAssignKey (TEntry.bare "b") = "b" ∧
    tentryAssignKey (TEntry.nested "c" true []) = "[object Object]" ∧
    ObjectCompressor.decompress (vArr []) []
      = ObjectUtils.decompress (vArr []) [] := by
  have hdec : ObjectUtils.decompress (vArr [vNum 7]) [TEntry.bare "a"]
      = .ok [("a", vNum 7)] := by
    simp [ObjectUtils.decompress, ObjectUtils.decompGo.eq_def, jsLenGE,
      jsRawGet, jsOwnGet?, jsProtoGet, idxOf?, natKey, natKeyAux, digitChar10,
      List.range_succ, nullToUndef, isNull, isUndef, tentryAssignKey, objSet,
      Except.bind, bind, arrayProtoNames, objectProtoNames]
  refine ⟨by simp, hdec, ?_, claim_C4_amended.2.1 "b",
    claim_C4_amended.2.2.1 "c" true [], claim_C4_amended.2.2.2 (vArr []) []⟩
  exact claim_C4_amended.1 [vNum 7] [TEntry.bare "a"]
    [TEntry.bare "b", TEntry.nested "c" true []] [("a", vNum 7)]
    (by simp) hdec

/-! ## C3: the round-trip specification

`restrictT` is spec-modelled: it renders the claim text — the object
restricted to the template keys, absent keys becoming explicit
undefined — amended with the null-to-undefined conversion decompress
applies. It is compared with the composition of the embedded compress
and decompress. -/

mutual

/-- Spec-side restriction of an object to a template (accumulator
form): template order, one field per entry, nested levels restricted by
their child templates, null and absent values becoming undefined. -/
def restrictGo (obj : JSVal) (t : List TEntry)
    (acc : List (String × JSVal)) : List (String × JSVal) :=
  match t with
  | [] => acc
  | .bare k :: rest =>
    restrictGo obj rest (objSet acc k (nullToUndef (jsOwnGetD obj k)))
  | .nested name isArr keys :: rest =>
    if isUndef (jsOwnGetD obj name) || isNull (jsOwnGetD obj name) then
      restrictGo obj rest (objSet acc name vUndef)
    else if isArr then
      restrictGo obj rest (objSet acc name
        (match jsOwnGetD obj name with
         | vArr items => vArr (restrictArr items keys)
         | _ => vUndef))
    else
      restrictGo obj rest (objSet acc name
        (vObj (restrictGo (jsOwnGetD obj name) keys [])))
termination_by (sizeOf t, sizeOf obj, 0)

/-- Spec-side restriction of an array of objects. -/
def restrictArr (items : List JSVal) (keys : List TEntry) : List JSVal :=
  match items with
  | [] => []
  | it :: rest => vObj (restrictGo it keys []) :: restrictArr rest keys
termination_by (sizeOf keys, sizeOf items, 1)

end

/-- Spec-side restriction of an object to a template. -/
def restrictT (obj : JSVal) (t : List TEntry) : List (String × JSVal) :=
  restrictGo obj t []

mutual

/-- Template compatibility for the round trip: every bare or descriptor
key that is absent must not collide with a prototype member name (the
compress-side read would yield a function); a descriptor value must be
undefined, a plain object matching its child template, or (for the
array form) an array of such objects — in particular not null, on
which compress throws. -/
def tcompat (obj : JSVal) : List TEntry → Bool
  | [] => true
  | .bare k :: rest =>
    (match jsOwnGet? obj k with
     | some _ => true
     | none => !(objectProtoNames.contains k)) && tcompat obj rest
  | .nested name isArr keys :: rest =>
    (match jsOwnGet? obj name with
     | none => !(objectProtoNames.contains name)
     | some vUndef => true
     | some (vObj sub) => !isArr && tcompat (vObj sub) keys
     | some (vArr items) => isArr && tcompatRows items keys
     | some _ => false) && tcompat obj rest
termination_by t => (sizeOf t, sizeOf obj, 0)

/-- Template compatibility of the rows of a nested array: every element
is a plain object compatible with the child template. -/
def tcompatRows (items : List JSVal) (keys : List TEntry) : Bool :=
  match items with
  | [] => true
  | it :: rest =>
    (match it with
     | vObj sub => tcompat (vObj sub) keys
     | _ => false) && tcompatRows rest keys
termination_by (sizeOf keys, sizeOf items, 1)

end

theorem jsRawGetE_obj (fs : List (String × JSVal)) (k : String) :
    jsRawGetE (vObj fs) k = .ok (jsRawGet (vObj fs) k) := rfl

theorem rawGet_eq_ownGetD_obj {fs : List (String × JSVal)} {k : String}
    (h : (match jsOwnGet? (vObj fs) k with
          | some _ => true
          | none => !(objectProtoNames.contains k)) = true) :
    jsRawGet (vObj fs) k = jsOwnGetD (vObj fs) k := by
  cases ho : jsOwnGet? (vObj fs) k with
  | some w => rw [jsRawGet, ho]; simp [jsOwnGetD, ho]
  | none =>
    rw [ho] at h
    simp only [Bool.not_eq_true'] at h
    rw [jsRawGet, ho]
    simp only [jsOwnGetD, ho, Option.getD_none]
    simp only [jsProtoGet]
    rw [if_neg]
    intro hmem
    rw [(contains_eq_mem _ _).mpr hmem] at h
    cases h

theorem restrictGo_nil (obj : JSVal) (acc : List (String × JSVal)) :
    restrictGo obj [] acc = acc := by
  conv_lhs => rw [restrictGo.eq_def]

theorem restrictGo_bare (obj : JSVal) (k : String) (rest : List TEntry)
    (acc : List (String × JSVal)) :
    restrictGo obj (.bare k :: rest) acc
      = restrictGo obj rest (objSet acc k (nullToUndef (jsOwnGetD obj k))) := by
  conv_lhs => rw [restrictGo.eq_def]

theorem restrictGo_nested (obj : JSVal) (name : String) (isArr : Bool)
    (keys rest : List TEntry) (acc : List (String × JSVal)) :
    restrictGo obj (.nested name isArr keys :: rest) acc
      = (if isUndef (jsOwnGetD obj name) || isNull (jsOwnGetD obj name) then
          restrictGo obj rest (objSet acc name vUndef)
        else if isArr then
          restrictGo obj rest (objSet acc name
            (match jsOwnGetD obj name with
             | vArr items => vArr (restrictArr items keys)
             | _ => vUndef))
        else
          restrictGo obj rest (objSet acc name
            (vObj (restrictGo (jsOwnGetD obj name) keys [])))) := by
  conv_lhs => rw [restrictGo.eq_def]

theorem restrictArr_cons (it : JSVal) (rest : List JSVal)
    (keys : List TEntry) :
    restrictArr (it :: rest) keys
      = vObj (restrictGo it keys []) :: restrictArr rest keys := by
  conv_lhs => rw [restrictArr.eq_def]

mutual

/-- Round trip of the codec on a compatible plain object: compress
succeeds, produces one element per entry, and decompressing the
produced elements (at any position inside a larger data array)
reconstructs exactly the spec-side restriction of the object. -/
theorem codecR (obj : JSVal) (t : List TEntry)
    (hobj : ∃ fs, obj = vObj fs) (hc : tcompat obj t = true) :
    ∃ ds : List JSVal,
      ObjectUtils.compressGo obj t = .ok ds ∧ ds.length = t.length ∧
      ∀ (pre : List JSVal) (acc : List (String × JSVal)),
        ObjectUtils.decompGo (vArr (pre ++ ds)) t pre.length acc
          = .ok (restrictGo obj t acc) := by
  obtain ⟨fs, rfl⟩ := hobj
  cases hteq : t with
  | nil =>
    refine ⟨[], by rw [ObjectUtils.compressGo.eq_def], rfl, ?_⟩
    intro pre acc
    rw [ObjectUtils.decompGo.eq_def, restrictGo.eq_def]
  | cons e rest =>
    rw [hteq] at hc
    cases e with
    | bare k =>
      rw [tcompat.eq_def] at hc
      simp only [Bool.and_eq_true] at hc
      obtain ⟨ds', hcomp', hlen', hdec'⟩ :=
        codecR (vObj fs) rest ⟨fs, rfl⟩ hc.2
      have hval : jsRawGet (vObj fs) k = jsOwnGetD (vObj fs) k :=
        rawGet_eq_ownGetD_obj hc.1
      refine ⟨jsRawGet (vObj fs) k :: ds', ?_, by simp [hlen'], ?_⟩
      · rw [ObjectUtils.compressGo.eq_def]
        simp only [jsRawGetE_obj, Except.bind, bind, hcomp']
      · intro pre acc
        rw [ObjectUtils.decompGo.eq_def]
        have hlt : pre.length < (pre ++ jsRawGet (vObj fs) k :: ds').length := by
          simp
        simp only [jsLenGE_arr_lt hlt, Except.bind, bind, Bool.false_eq_true,
          if_false]
        rw [jsRawGet_arr_idx (getElem?_append_head pre _ ds')]
        rw [show pre ++ jsRawGet (vObj fs) k :: ds'
            = (pre ++ [jsRawGet (vObj fs) k]) ++ ds' from by simp]
        rw [show pre.length + 1 = (pre ++ [jsRawGet (vObj fs) k]).length from
          by simp]
        rw [hdec']
        rw [restrictGo_bare, hval]
    | nested name isArr keys =>
      rw [tcompat.eq_def] at hc
      simp only [Bool.and_eq_true] at hc
      obtain ⟨ds', hcomp', hlen', hdec'⟩ :=
        codecR (vObj fs) rest ⟨fs, rfl⟩ hc.2
      cases ho : jsOwnGet? (vObj fs) name with
      | none =>
        have hraw : jsRawGet (vObj fs) name = vUndef := by
          rw [rawGet_eq_ownGetD_obj (by rw [ho]; rw [ho] at hc; exact hc.1)]
          simp [jsOwnGetD, ho]
        have hgd : jsOwnGetD (vObj fs) name = vUndef := by
          simp [jsOwnGetD, ho]
        refine ⟨vUndef :: ds', ?_, by simp [hlen'], ?_⟩
        · rw [ObjectUtils.compressGo.eq_def]
          simp only [jsRawGetE_obj, Except.bind, bind, hraw, isUndef,
            eq_self_iff_true, if_true, hcomp']
        · intro pre acc
          rw [ObjectUtils.decompGo.eq_def]
          have hlt : pre.length < (pre ++ vUndef :: ds').length := by simp
          simp only [jsLenGE_arr_lt hlt, Except.bind, bind, Bool.false_eq_true,
            if_false]
          rw [jsRawGet_arr_idx (getElem?_append_head pre _ ds')]
          simp only [isUndef, isNull, Bool.true_or, eq_self_iff_true, if_true]
          rw [show pre ++ vUndef :: ds' = (pre ++ [vUndef]) ++ ds' from by simp]
          rw [show pre.length + 1 = (pre ++ [vUndef]).length from by simp]
          rw [hdec']
          rw [restrictGo_nested]
          simp only [hgd, isUndef, isNull, Bool.true_or, eq_self_iff_true,
            if_true]
      | some w =>
        have hraw : jsRawGet (vObj fs) name = w := by
          rw [jsRawGet, ho]
        have hgd : jsOwnGetD (vObj fs) name = w := by
          simp [jsOwnGetD, ho]
        rw [ho] at hc
        cases w with
        | vUndef =>
          refine ⟨vUndef :: ds', ?_, by simp [hlen'], ?_⟩
          · rw [ObjectUtils.compressGo.eq_def]
            simp only [jsRawGetE_obj, Except.bind, bind, hraw, isUndef,
              eq_self_iff_true, if_true, hcomp']
          · intro pre acc
            rw [ObjectUtils.decompGo.eq_def]
            have hlt : pre.length < (pre ++ vUndef :: ds').length := by simp
            simp only [jsLenGE_arr_lt hlt, Except.bind, bind,
              Bool.false_eq_true, if_false]
            rw [jsRawGet_arr_idx (getElem?_append_head pre _ ds')]
            simp only [isUndef, isNull, Bool.true_or, eq_self_iff_true,
              if_true]
            rw [show pre ++ vUndef :: ds' = (pre ++ [vUndef]) ++ ds' from by
              simp]
            rw [show pre.length + 1 = (pre ++ [vUndef]).length from by simp]
            rw [hdec']
            rw [restrictGo_nested]
            simp only [hgd, isUndef, isNull, Bool.true_or, eq_self_iff_true,
              if_true]
        | vObj sub =>
          simp only [Bool.and_eq_true, Bool.not_eq_true'] at hc
          obtain ⟨⟨harr, hsub⟩, _⟩ := hc
          obtain ⟨row, hrcomp, hrlen, hrdec⟩ :=
            codecR (vObj sub) keys ⟨sub, rfl⟩ hsub
          have hrdec0 : ObjectUtils.decompGo (vArr row) keys 0 []
              = .ok (restrictGo (vObj sub) keys []) := by
            have := hrdec [] []
            simpa using this
          refine ⟨vArr row :: ds', ?_, by simp [hlen'], ?_⟩
          · rw [ObjectUtils.compressGo.eq_def]
            simp only [jsRawGetE_obj, Except.bind, bind, hraw, isUndef,
              Bool.false_eq_true, if_false, harr, hrcomp, hcomp']
          · intro pre acc
            rw [ObjectUtils.decompGo.eq_def]
            have hlt : pre.length < (pre ++ vArr row :: ds').length := by simp
            simp only [jsLenGE_arr_lt hlt, Except.bind, bind,
              Bool.false_eq_true, if_false]
            rw [jsRawGet_arr_idx (getElem?_append_head pre _ ds')]
            simp only [isUndef, isNull, Bool.or_self, Bool.false_eq_true,
              if_false, harr, hrdec0]
            rw [show pre ++ vArr row :: ds' = (pre ++ [vArr row]) ++ ds' from
              by simp]
            rw [show pre.length + 1 = (pre ++ [vArr row]).length from by simp]
            rw [hdec']
            rw [restrictGo_nested]
            simp only [hgd, isUndef, isNull, Bool.or_self, Bool.false_eq_true,
              if_false, harr]
        | vArr items =>
          simp only [Bool.and_eq_true] at hc
          obtain ⟨⟨harr, hrows⟩, _⟩ := hc
          obtain ⟨rows, hrcomp, hrdec⟩ := codecRArr items keys hrows
          refine ⟨vArr rows :: ds', ?_, by simp [hlen'], ?_⟩
          · rw [ObjectUtils.compressGo.eq_def]
            simp only [jsRawGetE_obj, Except.bind, bind, hraw, isUndef,
              Bool.false_eq_true, if_false, harr, eq_self_iff_true, if_true]
            rw [show ObjectUtils.compressArr (vArr items) keys
                = ObjectUtils.compressArrItems items keys from by
              rw [ObjectUtils.compressArr.eq_def]]
            simp only [hrcomp, hcomp']
          · intro pre acc
            rw [ObjectUtils.decompGo.eq_def]
            have hlt : pre.length < (pre ++ vArr rows :: ds').length := by simp
            simp only [jsLenGE_arr_lt hlt, Except.bind, bind,
              Bool.false_eq_true, if_false]
            rw [jsRawGet_arr_idx (getElem?_append_head pre _ ds')]
            simp only [isUndef, isNull, Bool.or_self, Bool.false_eq_true,
              if_false, harr, eq_self_iff_true, if_true]
            rw [show ObjectUtils.decompArr (vArr rows) keys
                = ObjectUtils.decompArrRows rows keys from by
              rw [ObjectUtils.decompArr.eq_def]]
            simp only [hrdec]
            rw [show pre ++ vArr rows :: ds' = (pre ++ [vArr rows]) ++ ds' from
              by simp]
            rw [show pre.length + 1 = (pre ++ [vArr rows]).length from by simp]
            rw [hdec']
            rw [restrictGo_nested]
            simp only [hgd, isUndef, isNull, Bool.or_self, Bool.false_eq_true,
              if_false, harr, eq_self_iff_true, if_true]
        | vNull => simp at hc
        | vBool b => simp at hc
        | vNum n => simp at hc
        | vStr s => simp at hc
        | vBigInt n => simp at hc
        | vDate ms => simp at hc
        | vFunc => simp at hc
termination_by (sizeOf t, 0, 0)
decreasing_by
  all_goals simp_wf
  all_goals try rw [hteq]
  all_goals decreasing_tactic

/-- Round trip of the codec on the rows of a compatible nested array. -/
theorem codecRArr (items : List JSVal) (keys : List TEntry)
    (hrows : tcompatRows items keys = true) :
    ∃ rows : List JSVal,
      ObjectUtils.compressArrItems items keys = .ok rows ∧
      ObjectUtils.decompArrRows rows keys = .ok (restrictArr items keys) := by
  cases hieq : items with
  | nil =>
    refine ⟨[], by rw [ObjectUtils.compressArrItems.eq_def], ?_⟩
    rw [ObjectUtils.decompArrRows.eq_def, restrictArr.eq_def]
  | cons it rest =>
    rw [hieq] at hrows
    rw [tcompatRows.eq_def] at hrows
    simp only [Bool.and_eq_true] at hrows
    cases it with
    | vObj sub =>
      obtain ⟨row, hrcomp, hrlen, hrdec⟩ :=
        codecR (vObj sub) keys ⟨sub, rfl⟩ hrows.1
      obtain ⟨rows', hrcomp', hrdec'⟩ := codecRArr rest keys hrows.2
      have hrdec0 : ObjectUtils.decompGo (vArr row) keys 0 []
          = .ok (restrictGo (vObj sub) keys []) := by
        have := hrdec [] []
        simpa using this
      refine ⟨vArr row :: rows', ?_, ?_⟩
      · rw [ObjectUtils.compressArrItems.eq_def]
        simp only [hrcomp, Except.bind, bind, hrcomp']
      · rw [ObjectUtils.decompArrRows.eq_def]
        simp only [hrdec0, Except.bind, bind, hrdec']
        rw [restrictArr_cons]
    | vUndef => simp at hrows
    | vNull => simp at hrows
    | vBool b => simp at hrows
    | vNum n => simp at hrows
    | vStr s => simp at hrows
    | vBigInt n => simp at hrows
    | vDate ms => simp at hrows
    | vArr xs => simp at hrows
    | vFunc => simp at hrows
termination_by (sizeOf keys, sizeOf items, 1)
decreasing_by
  all_goals simp_wf
  all_goals try rw [hieq]
  all_goals decreasing_tactic

end

/-- C3 (amended). For a plain object and a compatible template (no null
descriptor values, no prototype-member key collisions, array
descriptors over arrays of objects), decompress after compress
reproduces exactly the spec-side restriction of the object to the
template — with absent keys becoming explicit undefined as claimed,
and additionally (the amendment, see the counterexample) every null
value also becoming undefined on the way back. -/
theorem claim_C3_amended (fs : List (String × JSVal)) (t : List TEntry)
    (hc : tcompat (vObj fs) t = true) :
    ∃ ds, ObjectUtils.compress (vObj fs) t = .ok ds ∧
      ObjectUtils.decompress (vArr ds) t = .ok (restrictT (vObj fs) t) := by
  obtain ⟨ds, h1, _, h3⟩ := codecR (vObj fs) t ⟨fs, rfl⟩ hc
  refine ⟨ds, h1, ?_⟩
  have hd := h3 [] []
  simpa [ObjectUtils.decompress, restrictT] using hd

/-- C3 counterexample: the object a maps-to null round-trips to a
maps-to undefined, so the result is not the object restricted to the
template keys (the key a is present in the object with value null, not
undefined). -/
theorem claim_C3_counterexample :
    ObjectUtils.compress (vObj [("a", vNull)]) [TEntry.bare "a"]
      = .ok [vNull] ∧
    ObjectUtils.decompress (vArr [vNull]) [TEntry.bare "a"]
      = .ok [("a", vUndef)] ∧
    jsOwnGetD (vObj [("a", vNull)]) "a" = vNull ∧
    (vUndef : JSVal) ≠ vNull := by
  refine ⟨?_, ?_, by simp [jsOwnGetD, jsOwnGet?, List.lookup], ?_⟩
  · simp [ObjectUtils.compress, ObjectUtils.compressGo.eq_def, jsRawGetE,
      jsRawGet, jsOwnGet?, List.lookup, Except.bind, bind]
  · simp [ObjectUtils.decompress, ObjectUtils.decompGo.eq_def, jsLenGE,
      jsRawGet, jsOwnGet?, jsProtoGet, idxOf?, natKey, natKeyAux, digitChar10,
      List.range_succ, nullToUndef, isNull, isUndef, tentryAssignKey, objSet,
      Except.bind, bind, arrayProtoNames, objectProtoNames]
  · exact fun h => JSVal.noConfusion h

/-- C3 witness: the amended round trip at a concrete object (a number
field, a nested object, a nested array of objects, one absent key). -/
theorem claim_C3_amended_witness :
    tcompat (vObj [("id", vNum 1), ("addr", vObj [("city", vStr "X")]),
        ("tags", vArr [vObj [("n", vNum 2)]])])
      [TEntry.bare "id", TEntry.nested "addr" false [TEntry.bare "city"],
        TEntry.nested "tags" true [TEntry.bare "n"], TEntry.bare "missing"]
      = true ∧
    ∃ ds, ObjectUtils.compress
        (vObj [("id", vNum 1), ("addr", vObj [("city", vStr "X")]),
          ("tags", vArr [vObj [("n", vNum 2)]])])
        [TEntry.bare "id", TEntry.nested "addr" false [TEntry.bare "city"],
          TEntry.nested "tags" true [TEntry.bare "n"],
          TEntry.bare "missing"] = .ok ds ∧
      ObjectUtils.decompress (vArr ds)
        [TEntry.bare "id", TEntry.nested "addr" false [TEntry.bare "city"],
          TEntry.nested "tags" true [TEntry.bare "n"],
          TEntry.bare "missing"]
        = .ok (restrictT
            (vObj [("id", vNum 1), ("addr", vObj [("city", vStr "X")]),
              ("tags", vArr [vObj [("n", vNum 2)]])])
            [TEntry.bare "id", TEntry.nested "addr" false [TEntry.bare "city"],
              TEntry.nested "tags" true [TEntry.bare "n"],
              TEntry.bare "missing"]) := by
  have hcpt : tcompat (vObj [("id", vNum 1), ("addr", vObj [("city", vStr "X")]),
        ("tags", vArr [vObj [("n", vNum 2)]])])
      [TEntry.bare "id", TEntry.nested "addr" false [TEntry.bare "city"],
        TEntry.nested "tags" true [TEntry.bare "n"], TEntry.bare "missing"]
      = true := by
    simp [tcompat.eq_def, tcompatRows.eq_def, jsOwnGet?, List.lookup,
      objectProtoNames, List.contains]
  exact ⟨hcpt, claim_C3_amended _ _ hcpt⟩
